import Mathlib

/-!
# JuiceFS: the Wasabi object-storage constructor and the kernel-version probe

A shallow embedding of

* `pkg/object/wasabi.go`: `wasabi.String`, `wasabi.SetStorageClass`, `newWasabi`;
* `pkg/utils/utils_linux.go`: `GetKernelVersion`;

together with the parts of the Go standard library these functions call
(`strings`, `net/url`, `strconv`), followed by the properties proved about them.

A Go `string` is an immutable sequence of bytes and is embedded as the list of
its byte values.  Go's `int` results are embedded as `Int`, unsigned machine
arithmetic as `Nat` with an explicit reduction modulo `2 ^ 64`.  A run-time
panic is an explicit outcome of the embedded function.
-/

namespace Juicefs

/-- A Go `string`: the list of its bytes. -/
abbrev GoString := List Nat

/-- The bytes of an ASCII string literal of the source. -/
def lit (s : String) : GoString := s.toList.map Char.toNat

/-- Run-time panics raised by indexing and slicing. -/
inductive RuntimePanic where
  /-- `index out of range [index] with length length` -/
  | indexOutOfRange (index length : Nat)
  /-- `slice bounds out of range [low:length]` -/
  | sliceBoundsOutOfRange (low length : Nat)
  deriving DecidableEq, Repr

/-- The outcome of running a Go function: it returns `v`, or it panics. -/
inductive Outcome (α : Type) where
  | ret (v : α)
  | panic (p : RuntimePanic)
  deriving DecidableEq, Repr

/-! ## Package `strings` -/

namespace strings

/-- Go `strings.HasPrefix`. -/
def HasPrefix (s pre : GoString) : Bool := pre.isPrefixOf s

/-- Go `strings.HasSuffix`. -/
def HasSuffix (s suffix : GoString) : Bool := suffix.isSuffixOf s

/-- Go `strings.Index`: the index of the first instance of `substr` in `s`;
`none` stands for Go's `-1`. -/
def Index : GoString → GoString → Option Nat
  | [], substr => if substr = [] then some 0 else none
  | c :: s, substr =>
    if substr.isPrefixOf (c :: s) then some 0 else (Index s substr).map (· + 1)

/-- Go `strings.LastIndex`: the index of the last instance of `substr` in `s`;
`none` stands for Go's `-1`. -/
def LastIndex : GoString → GoString → Option Nat
  | [], substr => if substr = [] then some 0 else none
  | c :: s, substr =>
    match LastIndex s substr with
    | some i => some (i + 1)
    | none => if substr.isPrefixOf (c :: s) then some 0 else none

/-- Go `strings.Contains`: `Index(s, substr) >= 0`. -/
def Contains (s substr : GoString) : Bool := (Index s substr).isSome

/-- The loop of `strings.Count` for a non-empty `substr`; the first argument
bounds the number of iterations (each one consumes at least one byte). -/
def countLoop (substr : GoString) : Nat → GoString → Nat
  | 0, _ => 0
  | k + 1, s =>
    match Index s substr with
    | none => 0
    | some i => countLoop substr k (s.drop (i + substr.length)) + 1

/-- Go `strings.Count`: the number of non-overlapping instances of `substr`.
For the empty `substr` Go answers one more than the number of UTF-8 sequences
of `s`; that case is counted bytewise here (exact on ASCII) and is not reached
by the embedded code, which only counts `"?"` and `"."`. -/
def Count (s substr : GoString) : Nat :=
  if substr = [] then s.length + 1 else countLoop substr s.length s

/-- Go `strings.Cut`: `s` around the first instance of `sep`. -/
def Cut (s sep : GoString) : GoString × GoString × Bool :=
  match Index s sep with
  | some i => (s.take i, s.drop (i + sep.length), true)
  | none => (s, [], false)

/-- The loop of `strings.genSplit` (`sepSave = 0`): at most `k` further cuts. -/
def splitLoop (sep : GoString) : Nat → GoString → List GoString
  | 0, s => [s]
  | k + 1, s =>
    match Index s sep with
    | none => [s]
    | some m => s.take m :: splitLoop sep k (s.drop (m + sep.length))

/-- Go `strings.genSplit(s, sep, 0, n)`.  The `sep == ""` branch (`explode`, which
cuts `s` into UTF-8 sequences) is rendered bytewise; the embedded code always
passes `"."`. -/
def genSplit (s sep : GoString) (n : Int) : List GoString :=
  if n = 0 then []
  else if sep = [] then s.map fun b => [b]
  else
    let n : Nat := if n < 0 then Count s sep + 1 else n.toNat
    let n : Nat := if n > s.length + 1 then s.length + 1 else n
    splitLoop sep (n - 1) s

/-- Go `strings.Split(s, sep)`: `genSplit(s, sep, 0, -1)`. -/
def Split (s sep : GoString) : List GoString := genSplit s sep (-1)

/-- Go `strings.SplitN(s, sep, n)`: `genSplit(s, sep, 0, n)`. -/
def SplitN (s sep : GoString) (n : Int) : List GoString := genSplit s sep n

/-- Go `strings.ToLower` on a string of ASCII bytes: `'A'..'Z'` are moved to
`'a'..'z'`, every other byte is kept.  (On a string with bytes above `0x7f` Go
lowers Unicode letters as well; `newWasabi` only lowers the scheme of a parsed
URL, which `getScheme` restricts to ASCII letters, digits, `+`, `-` and `.`.) -/
def ToLower (s : GoString) : GoString :=
  s.map fun c => if 'A'.toNat ≤ c ∧ c ≤ 'Z'.toNat then c + ('a'.toNat - 'A'.toNat) else c

end strings

/-! ## Package `net/url`: the request-URI parser, as in the Go 1.2x standard library -/

namespace url

open strings

/-- The `encoding` modes of `net/url`. -/
inductive encoding where
  | encodePath
  | encodePathSegment
  | encodeHost
  | encodeZone
  | encodeUserPassword
  | encodeQueryComponent
  | encodeFragment
  deriving DecidableEq, Repr

open encoding

/-- The errors produced inside `parse`. -/
inductive ParseError where
  /-- `errors.New(msg)` -/
  | errorString (msg : String)
  /-- `EscapeError(s)`: `invalid URL escape "s"` -/
  | EscapeError (s : GoString)
  /-- `InvalidHostError(s)`: `invalid character "s" in host name` -/
  | InvalidHostError (s : GoString)
  /-- `fmt.Errorf("invalid port %q after host", colonPort)` -/
  | invalidPort (colonPort : GoString)
  deriving DecidableEq, Repr

/-- Go `url.Error`: the operation, the URL and the cause. -/
structure Error where
  Op : String
  URL : GoString
  Err : ParseError
  deriving DecidableEq, Repr

/-- Go `url.Userinfo`. -/
structure Userinfo where
  username : GoString
  password : GoString
  passwordSet : Bool
  deriving DecidableEq, Repr

/-- Go `url.URL`, without `RawPath`, `Fragment` and `RawFragment`: `parse` sets
no fragment, and `RawPath` is an encoding hint that nothing here reads. -/
structure URL where
  Scheme : GoString := []
  Opaque : GoString := []
  User : Option Userinfo := none
  Host : GoString := []
  Path : GoString := []
  OmitHost : Bool := false
  ForceQuery : Bool := false
  RawQuery : GoString := []
  deriving DecidableEq, Repr

/-- Go `ishex`. -/
def ishex (c : Nat) : Bool :=
  ('0'.toNat ≤ c ∧ c ≤ '9'.toNat) ∨ ('a'.toNat ≤ c ∧ c ≤ 'f'.toNat) ∨
    ('A'.toNat ≤ c ∧ c ≤ 'F'.toNat)

/-- Go `unhex`. -/
def unhex (c : Nat) : Nat :=
  if '0'.toNat ≤ c ∧ c ≤ '9'.toNat then c - '0'.toNat
  else if 'a'.toNat ≤ c ∧ c ≤ 'f'.toNat then c - 'a'.toNat + 10
  else if 'A'.toNat ≤ c ∧ c ≤ 'F'.toNat then c - 'A'.toNat + 10
  else 0

/-- Go `shouldEscape`: whether byte `c` must be escaped in the given mode. -/
def shouldEscape (c : Nat) (mode : encoding) : Bool :=
  if ('a'.toNat ≤ c ∧ c ≤ 'z'.toNat) ∨ ('A'.toNat ≤ c ∧ c ≤ 'Z'.toNat) ∨
      ('0'.toNat ≤ c ∧ c ≤ '9'.toNat) then false
  else if (mode = encodeHost ∨ mode = encodeZone) ∧ c ∈ lit "!$&'()*+,;=:[]<>\"" then false
  else if c ∈ lit "-_.~" then false
  else if c ∈ lit "$&+,/:;=?@" ∧ mode = encodePath then c = '?'.toNat
  else if c ∈ lit "$&+,/:;=?@" ∧ mode = encodePathSegment then c ∈ lit "/;,?"
  else if c ∈ lit "$&+,/:;=?@" ∧ mode = encodeUserPassword then c ∈ lit "@/?:"
  else if c ∈ lit "$&+,/:;=?@" ∧ mode = encodeQueryComponent then true
  else if c ∈ lit "$&+,/:;=?@" ∧ mode = encodeFragment then false
  else if mode = encodeFragment ∧ c ∈ lit "!()*" then false
  else true

/-- The first loop of Go `unescape`: it checks that every `%` starts a
well-formed escape allowed in `mode` and returns the number of escapes and
`hasPlus`. -/
def unescapeScan (mode : encoding) : GoString → Except ParseError (Nat × Bool)
  | [] => .ok (0, false)
  | c :: s =>
    if c = '%'.toNat then
      match s with
      | h1 :: h2 :: s' =>
        if !ishex h1 || !ishex h2 then .error (.EscapeError ((c :: s).take 3))
        else if mode = encodeHost ∧ unhex h1 < 8 ∧ [c, h1, h2] ≠ lit "%25" then
          .error (.EscapeError [c, h1, h2])
        else if mode = encodeZone ∧ [c, h1, h2] ≠ lit "%25" ∧
            (unhex h1 <<< 4 ||| unhex h2) % 256 ≠ ' '.toNat ∧
            shouldEscape ((unhex h1 <<< 4 ||| unhex h2) % 256) encodeHost then
          .error (.EscapeError [c, h1, h2])
        else
          match unescapeScan mode s' with
          | .error e => .error e
          | .ok (n, hasPlus) => .ok (n + 1, hasPlus)
      | _ => .error (.EscapeError ((c :: s).take 3))
    else if c = '+'.toNat then
      match unescapeScan mode s with
      | .error e => .error e
      | .ok (n, _) => .ok (n, decide (mode = encodeQueryComponent))
    else if (mode = encodeHost ∨ mode = encodeZone) ∧ c < 0x80 ∧ shouldEscape c encodeHost then
      .error (.InvalidHostError [c])
    else unescapeScan mode s

/-- The second loop of Go `unescape`: it replaces every escape by its byte. -/
def unescapeBuild (mode : encoding) : GoString → GoString
  | [] => []
  | c :: s =>
    if c = '%'.toNat then
      match s with
      | h1 :: h2 :: s' => (unhex h1 <<< 4 ||| unhex h2) % 256 :: unescapeBuild mode s'
      | _ => []
    else if c = '+'.toNat then
      (if mode = encodeQueryComponent then ' '.toNat else '+'.toNat) :: unescapeBuild mode s
    else c :: unescapeBuild mode s

/-- Go `unescape`. -/
def unescape (s : GoString) (mode : encoding) : Except ParseError GoString :=
  match unescapeScan mode s with
  | .error e => .error e
  | .ok (n, hasPlus) => if n = 0 ∧ !hasPlus then .ok s else .ok (unescapeBuild mode s)

/-- Go `stringContainsCTLByte`. -/
def stringContainsCTLByte (s : GoString) : Bool :=
  s.any fun b => b < ' '.toNat || b = 0x7f

/-- The loop of Go `getScheme`, at index `i` with `s` the bytes from `i` on. -/
def getSchemeLoop (rawURL : GoString) : Nat → GoString → Except ParseError (GoString × GoString)
  | _, [] => .ok ([], rawURL)
  | i, c :: s =>
    if ('a'.toNat ≤ c ∧ c ≤ 'z'.toNat) ∨ ('A'.toNat ≤ c ∧ c ≤ 'Z'.toNat) then
      getSchemeLoop rawURL (i + 1) s
    else if ('0'.toNat ≤ c ∧ c ≤ '9'.toNat) ∨ c = '+'.toNat ∨ c = '-'.toNat ∨ c = '.'.toNat then
      if i = 0 then .ok ([], rawURL) else getSchemeLoop rawURL (i + 1) s
    else if c = ':'.toNat then
      if i = 0 then .error (.errorString "missing protocol scheme")
      else .ok (rawURL.take i, rawURL.drop (i + 1))
    else .ok ([], rawURL)

/-- Go `getScheme`: the scheme and the rest of `rawURL`. -/
def getScheme (rawURL : GoString) : Except ParseError (GoString × GoString) :=
  getSchemeLoop rawURL 0 rawURL

/-- Go `validOptionalPort`: `port` is empty or a colon followed by digits. -/
def validOptionalPort (port : GoString) : Bool :=
  match port with
  | [] => true
  | c :: digits =>
    if c ≠ ':'.toNat then false
    else digits.all fun b => !(b < '0'.toNat || b > '9'.toNat)

/-- Go `validUserinfo`. -/
def validUserinfo (s : GoString) : Bool :=
  s.all fun r =>
    ('A'.toNat ≤ r ∧ r ≤ 'Z'.toNat) ∨ ('a'.toNat ≤ r ∧ r ≤ 'z'.toNat) ∨
      ('0'.toNat ≤ r ∧ r ≤ '9'.toNat) ∨ r ∈ lit "-._:~!$&'()*+,;=%@"

/-- Go `parseHost`. -/
def parseHost (host : GoString) : Except ParseError GoString :=
  if HasPrefix host (lit "[") then
    match LastIndex host (lit "]") with
    | none => .error (.errorString "missing ']' in host")
    | some i =>
      let colonPort := host.drop (i + 1)
      if !validOptionalPort colonPort then .error (.invalidPort colonPort)
      else
        match Index (host.take i) (lit "%25") with
        | some zone =>
          match unescape (host.take zone) encodeHost with
          | .error e => .error e
          | .ok host1 =>
            match unescape ((host.take i).drop zone) encodeZone with
            | .error e => .error e
            | .ok host2 =>
              match unescape (host.drop i) encodeHost with
              | .error e => .error e
              | .ok host3 => .ok (host1 ++ host2 ++ host3)
        | none => unescape host encodeHost
  else
    match LastIndex host (lit ":") with
    | some i =>
      let colonPort := host.drop i
      if !validOptionalPort colonPort then .error (.invalidPort colonPort)
      else unescape host encodeHost
    | none => unescape host encodeHost

/-- Go `parseAuthority`: the user information and the host of an authority. -/
def parseAuthority (authority : GoString) : Except ParseError (Option Userinfo × GoString) :=
  let i := LastIndex authority (lit "@")
  match parseHost (match i with | none => authority | some i => authority.drop (i + 1)) with
  | .error e => .error e
  | .ok host =>
    match i with
    | none => .ok (none, host)
    | some i =>
      let userinfo := authority.take i
      if !validUserinfo userinfo then .error (.errorString "net/url: invalid userinfo")
      else if !Contains userinfo (lit ":") then
        match unescape userinfo encodeUserPassword with
        | .error e => .error e
        | .ok userinfo => .ok (some ⟨userinfo, [], false⟩, host)
      else
        let (username, password, _) := Cut userinfo (lit ":")
        match unescape username encodeUserPassword with
        | .error e => .error e
        | .ok username =>
          match unescape password encodeUserPassword with
          | .error e => .error e
          | .ok password => .ok (some ⟨username, password, true⟩, host)

/-- Go `(*URL).setPath`, up to the `RawPath` hint. -/
def setPath (u : URL) (p : GoString) : Except ParseError URL :=
  match unescape p encodePath with
  | .error e => .error e
  | .ok path => .ok { u with Path := path }

/-- The second half of Go `parse`: the authority and the path of `rest`. -/
def parseAuthorityAndPath (u : URL) (rest : GoString) (viaRequest : Bool) :
    Except ParseError URL :=
  if (u.Scheme ≠ [] || (!viaRequest && !HasPrefix rest (lit "///"))) &&
      HasPrefix rest (lit "//") then
    let authority := rest.drop 2
    let (authority, rest) :=
      match Index authority (lit "/") with
      | some i => (authority.take i, authority.drop i)
      | none => (authority, [])
    match parseAuthority authority with
    | .error e => .error e
    | .ok (user, host) => setPath { u with User := user, Host := host } rest
  else if u.Scheme ≠ [] && HasPrefix rest (lit "/") then
    setPath { u with OmitHost := true } rest
  else setPath u rest

/-- Go `parse(rawURL, viaRequest)`. -/
def parse (rawURL : GoString) (viaRequest : Bool) : Except ParseError URL :=
  if stringContainsCTLByte rawURL then
    .error (.errorString "net/url: invalid control character in URL")
  else if rawURL = [] && viaRequest then .error (.errorString "empty url")
  else if rawURL = lit "*" then .ok { Path := lit "*" }
  else
    match getScheme rawURL with
    | .error e => .error e
    | .ok (scheme, rest) =>
      let scheme := ToLower scheme
      let (rest, forceQuery, rawQuery) :=
        if HasSuffix rest (lit "?") && Count rest (lit "?") == 1 then
          (rest.take (rest.length - 1), true, [])
        else ((Cut rest (lit "?")).1, false, (Cut rest (lit "?")).2.1)
      let u : URL := { Scheme := scheme, ForceQuery := forceQuery, RawQuery := rawQuery }
      if !HasPrefix rest (lit "/") then
        if scheme ≠ [] then .ok { u with Opaque := rest }
        else if viaRequest then .error (.errorString "invalid URI for request")
        else if Contains (Cut rest (lit "/")).1 (lit ":") then
          .error (.errorString "first path segment in URL cannot contain colon")
        else parseAuthorityAndPath u rest viaRequest
      else parseAuthorityAndPath u rest viaRequest

/-- Go `url.ParseRequestURI`. -/
def ParseRequestURI (rawURL : GoString) : Except Error URL :=
  match parse rawURL true with
  | .error err => .error ⟨"parse", rawURL, err⟩
  | .ok url => .ok url

end url

/-! ## Package `strconv` -/

namespace strconv

/-- The two causes carried by a `strconv.NumError`. -/
inductive Cause where
  | ErrSyntax
  | ErrRange
  deriving DecidableEq, Repr

/-- Go `strconv.NumError`. -/
structure NumError where
  Func : String
  Num : GoString
  Err : Cause
  deriving DecidableEq, Repr

/-- Go `syntaxError(fn, str)`. -/
def syntaxError (fn : String) (str : GoString) : NumError := ⟨fn, str, .ErrSyntax⟩

/-- Go `rangeError(fn, str)`. -/
def rangeError (fn : String) (str : GoString) : NumError := ⟨fn, str, .ErrRange⟩

/-- Go `maxUint64`. -/
def maxUint64 : Nat := 2 ^ 64 - 1

/-- Go `lower(c)`: `c | ('x' - 'X')`. -/
def lower (c : Nat) : Nat := c ||| ('x'.toNat - 'X'.toNat)

/-- The digit loop of Go `ParseUint` for an explicit base `2 ≤ base ≤ 36` (no
underscores are accepted then); `n` is the `uint64` accumulator. -/
def parseUintLoop (s0 : GoString) (base maxVal : Nat) : GoString → Nat → Nat × Option NumError
  | [], n => (n, none)
  | c :: s, n =>
    if '0'.toNat ≤ c ∧ c ≤ '9'.toNat ∨ 'a'.toNat ≤ lower c ∧ lower c ≤ 'z'.toNat then
      let d := if '0'.toNat ≤ c ∧ c ≤ '9'.toNat then c - '0'.toNat
        else lower c - 'a'.toNat + 10
      if d ≥ base then (0, some (syntaxError "ParseUint" s0))
      else if n ≥ maxUint64 / base + 1 then (maxVal, some (rangeError "ParseUint" s0))
      else
        let n := n * base % 2 ^ 64
        let n1 := (n + d) % 2 ^ 64
        if n1 < n ∨ n1 > maxVal then (maxVal, some (rangeError "ParseUint" s0))
        else parseUintLoop s0 base maxVal s n1
    else (0, some (syntaxError "ParseUint" s0))

/-- Go `strconv.ParseUint(s, base, bitSize)` for an explicit base `2 ≤ base ≤ 36`
and `0 ≤ bitSize ≤ 64`; `intSize` is the platform constant `strconv.IntSize`. -/
def ParseUint (intSize : Nat) (s : GoString) (base bitSize : Nat) : Nat × Option NumError :=
  if s = [] then (0, some (syntaxError "ParseUint" s))
  else
    let bitSize := if bitSize = 0 then intSize else bitSize
    parseUintLoop s base (2 ^ bitSize - 1) s 0

/-- Go `strconv.ParseInt(s, base, bitSize)` for an explicit base. -/
def ParseInt (intSize : Nat) (s : GoString) (base bitSize : Nat) : Int × Option NumError :=
  if s = [] then (0, some (syntaxError "ParseInt" s))
  else
    let s0 := s
    let neg := s.head? = some '-'.toNat
    let s := if s.head? = some '+'.toNat ∨ s.head? = some '-'.toNat then s.drop 1 else s
    match ParseUint intSize s base bitSize with
    | (_, some ⟨_, _, .ErrSyntax⟩) => (0, some ⟨"ParseInt", s0, .ErrSyntax⟩)
    | (un, _) =>
      let bitSize := if bitSize = 0 then intSize else bitSize
      let cutoff := 2 ^ (bitSize - 1)
      if ¬neg ∧ un ≥ cutoff then ((cutoff : Int) - 1, some (rangeError "ParseInt" s0))
      else if neg ∧ un > cutoff then (-(cutoff : Int), some (rangeError "ParseInt" s0))
      else (if neg then -(un : Int) else (un : Int), none)

/-- The digit loop of the fast path of Go `Atoi`; `none` is the syntax error. -/
def atoiFastLoop : GoString → Int → Option Int
  | [], n => some n
  | ch :: s, n =>
    let ch := (ch + 256 - '0'.toNat) % 256
    if ch > 9 then none else atoiFastLoop s (n * 10 + ch)

/-- The fast path of Go `Atoi` once the sign is stripped: `s0` is the argument,
`s` its digits. -/
def atoiFast (s0 s : GoString) : Int × Option NumError :=
  match atoiFastLoop s 0 with
  | none => (0, some (syntaxError "Atoi" s0))
  | some n => (if s0.head? = some '-'.toNat then -n else n, none)

/-- Go `strconv.Atoi`; `intSize` is the platform constant `strconv.IntSize` (32 or
64).  The result is the pair of Go's two results, `none` being the `nil` error. -/
def Atoi (intSize : Nat) (s : GoString) : Int × Option NumError :=
  let sLen := s.length
  if intSize = 32 ∧ (0 < sLen ∧ sLen < 10) ∨ intSize = 64 ∧ (0 < sLen ∧ sLen < 19) then
    let s0 := s
    if s.head? = some '-'.toNat ∨ s.head? = some '+'.toNat then
      let s := s.drop 1
      if s.length < 1 then (0, some (syntaxError "Atoi" s0)) else atoiFast s0 s
    else atoiFast s0 s
  else
    match ParseInt intSize s 10 0 with
    | (i64, some nerr) => (i64, some { nerr with Func := "Atoi" })
    | (i64, none) => (i64, none)

end strconv

/-! ## `pkg/object/wasabi.go` -/

namespace object

open strings

/-- The values of Go's `error` interface that the embedded functions return. -/
inductive error where
  /-- `fmt.Errorf("Invalid endpoint %s: %s", endpoint, err)` -/
  | invalidEndpoint (endpoint : GoString) (err : url.Error)
  /-- `fmt.Errorf("failed to load config: %s", err)` -/
  | failedToLoadConfig (err : GoString)
  /-- The value held by the package variable `notSupported`. -/
  | notSupportedSignal
  deriving DecidableEq, Repr

/-- Modelled from the spec: the package variable `notSupported` of `pkg/object`,
which is declared outside the embedded files: the typed "not supported" signal,
an error value that is not `nil`. -/
def notSupported : error := error.notSupportedSignal

/-- The S3 client built by `s3.NewFromConfig(awsCfg, ...)`: the loaded
configuration and the options set by `newWasabi` (the shared `httpClient` and
the unsigned-payload signing middleware are fixed and carry no data). -/
structure S3Client (Cfg : Type) where
  awsCfg : Cfg
  Region : GoString
  BaseEndpoint : GoString
  DisableHTTPS : Bool
  UsePathStyle : Bool
  RetryMaxAttempts : Nat
  deriving DecidableEq, Repr

/-- Go `s3client`: the fields set by `newWasabi`. -/
structure s3client (Cfg : Type) where
  bucket : GoString
  s3 : S3Client Cfg
  region : GoString
  deriving DecidableEq, Repr

/-- Go `wasabi`: an embedded `s3client`. -/
structure wasabi (Cfg : Type) where
  s3client : object.s3client Cfg
  deriving DecidableEq, Repr

/-- Go `(*wasabi).String`: `fmt.Sprintf("wasabi://%s/", s.s3client.bucket)`. -/
def wasabi.String {Cfg : Type} (s : wasabi Cfg) : GoString :=
  lit "wasabi://" ++ s.s3client.bucket ++ lit "/"

/-- Go `(*wasabi).SetStorageClass`; `none` is the `nil` error. -/
def wasabi.SetStorageClass {Cfg : Type} (_s : wasabi Cfg) (_ : GoString) : Option error :=
  some notSupported

/-- The first statement of `newWasabi`: an endpoint without `"://"` gets the
prefix `"https://"`. -/
def defaultScheme (endpoint : GoString) : GoString :=
  if !Contains endpoint (lit "://") then lit "https://" ++ endpoint else endpoint

/-- Go `newWasabi`.  `LoadDefaultConfig accessKey secretKey token` stands for
`config.LoadDefaultConfig` with the static credentials provider built from the
three strings: it yields the configuration or the message of its error.  The
result pairs the `ObjectStorage` and the `error`, `none` being `nil`. -/
def newWasabi {Cfg : Type} (LoadDefaultConfig : GoString → GoString → GoString → Except GoString Cfg)
    (endpoint accessKey secretKey token : GoString) :
    Outcome (Option (wasabi Cfg) × Option error) :=
  let endpoint := defaultScheme endpoint
  match url.ParseRequestURI endpoint with
  | .error err => .ret (none, some (.invalidEndpoint endpoint err))
  | .ok uri =>
    let ssl := ToLower uri.Scheme == lit "https"
    let hostParts := Split uri.Host (lit ".")
    match hostParts[0]? with
    | none => .panic (.indexOutOfRange 0 hostParts.length)
    | some bucket =>
      match hostParts[2]? with
      | none => .panic (.indexOutOfRange 2 hostParts.length)
      | some region =>
        if bucket.length + 1 > uri.Host.length then
          .panic (.sliceBoundsOutOfRange (bucket.length + 1) uri.Host.length)
        else
          let endpoint := uri.Scheme ++ lit "://" ++ uri.Host.drop (bucket.length + 1)
          match LoadDefaultConfig accessKey secretKey token with
          | .error err => .ret (none, some (.failedToLoadConfig err))
          | .ok awsCfg =>
            let client : S3Client Cfg :=
              { awsCfg := awsCfg
                Region := region
                BaseEndpoint := endpoint
                DisableHTTPS := !ssl
                UsePathStyle := false
                RetryMaxAttempts := 1 }
            .ret (some ⟨{ bucket := bucket, s3 := client, region := region }⟩, none)

end object

/-! ## `pkg/utils/utils_linux.go` -/

namespace utils

open strings

/-- Go `syscall.Utsname`: the `Release` field, an array of 65 `int8`. -/
structure Utsname where
  Release : List Int
  deriving DecidableEq, Repr

/-- The copy loop of `GetKernelVersion`: the bytes of `Release` before the first
`0x00`, each `int8` converted by `byte(v)`. -/
def releaseBytes : List Int → GoString
  | [] => []
  | v :: vs => if v = 0 then [] else (v % 256).toNat :: releaseBytes vs

/-- Go `GetKernelVersion`.  `Uname` is the result of `syscall.Uname(&uname)`:
the filled structure, or `none` when the call fails; `intSize` is the width of
`int`.  The result is `(major, minor)`. -/
def GetKernelVersion (intSize : Nat) (Uname : Option Utsname) : Int × Int :=
  match Uname with
  | none => (0, 0)
  | some uname =>
    let buf := releaseBytes uname.Release
    let ps := SplitN buf (lit ".") 3
    match ps with
    | p0 :: p1 :: _ =>
      match strconv.Atoi intSize p0 with
      | (major, some _) => (major, 0)
      | (major, none) => (major, (strconv.Atoi intSize p1).1)
    | _ => (0, 0)

end utils

/-! ## Vocabulary of the specification -/

/-- A byte allowed in a URI scheme: an ASCII letter, a digit, `+`, `-` or `.`. -/
def isSchemeByte (c : Nat) : Bool :=
  ('a'.toNat ≤ c ∧ c ≤ 'z'.toNat) ∨ ('A'.toNat ≤ c ∧ c ≤ 'Z'.toNat) ∨
    ('0'.toNat ≤ c ∧ c ≤ '9'.toNat) ∨ c = '+'.toNat ∨ c = '-'.toNat ∨ c = '.'.toNat

/-- A URI scheme: an ASCII letter followed by scheme bytes. -/
def validScheme : GoString → Bool
  | [] => false
  | c :: cs =>
    (('a'.toNat ≤ c ∧ c ≤ 'z'.toNat) ∨ ('A'.toNat ≤ c ∧ c ≤ 'Z'.toNat)) && cs.all isSchemeByte

/-- The endpoint starts with a `scheme://` prefix: its longest run of scheme
bytes is a URI scheme and is followed by `"://"`. -/
def startsWithScheme (endpoint : GoString) : Bool :=
  validScheme (endpoint.takeWhile isSchemeByte) &&
    strings.HasPrefix (endpoint.dropWhile isSchemeByte) (lit "://")

/-- A configuration loader that always succeeds and records the static
credentials it was given. -/
def staticConfig (accessKey secretKey token : GoString) :
    Except GoString (GoString × GoString × GoString) :=
  .ok (accessKey, secretKey, token)

/-- The adapter `newWasabi` returns on success: the loaded configuration, the
bucket, the region, the recomputed endpoint and the TLS flag `ssl`, with the
fixed options (`UsePathStyle = false`, `RetryMaxAttempts = 1`). -/
def wasabiOf {Cfg : Type} (awsCfg : Cfg) (bucket region endpoint : GoString) (ssl : Bool) :
    object.wasabi Cfg :=
  ⟨{ bucket := bucket
     s3 := { awsCfg := awsCfg
             Region := region
             BaseEndpoint := endpoint
             DisableHTTPS := !ssl
             UsePathStyle := false
             RetryMaxAttempts := 1 }
     region := region }⟩

/-- An ASCII decimal digit. -/
def isDigitByte (c : Nat) : Bool := '0'.toNat ≤ c ∧ c ≤ '9'.toNat

/-- The number written by a string of decimal digits. -/
def digitsValue (ds : GoString) : Nat :=
  ds.foldl (fun n c => n * 10 + (c - '0'.toNat)) 0

/-- A field without its optional sign `+` or `-`. -/
def unsigned : GoString → GoString
  | [] => []
  | c :: ds => if c = '+'.toNat ∨ c = '-'.toNat then ds else c :: ds

/-- The decimal integer a field denotes: an optional sign followed by at least
one digit and nothing else; `none` when the field is not of that form. -/
def decimalInteger (s : GoString) : Option Int :=
  if unsigned s ≠ [] ∧ (unsigned s).all isDigitByte then
    some (if s.head? = some '-'.toNat then -(digitsValue (unsigned s) : Int)
      else (digitsValue (unsigned s) : Int))
  else none

/-- The digits a field starts with, after its optional sign. -/
def leadingDigits (s : GoString) : GoString := (unsigned s).takeWhile isDigitByte

/-- The text of the release before its first dot. -/
def firstField (buf : GoString) : GoString := buf.takeWhile (· ≠ '.'.toNat)

/-- The text of the release between its first dot and the next one (or the end). -/
def secondField (buf : GoString) : GoString :=
  ((buf.dropWhile (· ≠ '.'.toNat)).drop 1).takeWhile (· ≠ '.'.toNat)

/-- The bytes of a string as the `int8` values of a `Utsname` field, followed by
the terminating `0x00`. -/
def cstring (s : GoString) : List Int :=
  s.map (fun b => if b < 128 then (b : Int) else (b : Int) - 256) ++ [0]

/-- Two bytes that are equal, or are the upper-case and the lower-case form of
one ASCII letter. -/
def sameLetter (a b : Nat) : Bool :=
  a = b ∨ ('A'.toNat ≤ a ∧ a ≤ 'Z'.toNat ∧ b = a + 32) ∨
    ('A'.toNat ≤ b ∧ b ≤ 'Z'.toNat ∧ a = b + 32)

/-- Two strings that are equal when the case of ASCII letters is ignored. -/
def equalIgnoringCase : GoString → GoString → Bool
  | [], [] => true
  | a :: s, b :: t => sameLetter a b && equalIgnoringCase s t
  | _, _ => false

/-! ## Properties of the `strings` functions -/

namespace strings

theorem Index_eq_some {sep : GoString} :
    ∀ {s : GoString} {m : Nat}, Index s sep = some m →
      s = s.take m ++ sep ++ s.drop (m + sep.length) := by
  intro s
  induction s with
  | nil =>
    intro m h
    simp only [Index] at h
    split at h
    · subst_vars; simp
    · cases h
  | cons c s ih =>
    intro m h
    simp only [Index] at h
    split at h
    · rename_i hp
      injection h with h
      subst h
      obtain ⟨t, ht⟩ := List.isPrefixOf_iff_prefix.mp hp
      simp [← ht]
    · cases hi : Index s sep with
      | none => simp [hi] at h
      | some m' =>
        simp [hi] at h
        subst h
        have := ih hi
        simp only [List.take_succ_cons, List.cons_append]
        rw [show m' + 1 + sep.length = (m' + sep.length) + 1 by omega, List.drop_succ_cons]
        exact congrArg (c :: ·) this

theorem Index_single_none {c : Nat} : ∀ {s : GoString}, Index s [c] = none → c ∉ s := by
  intro s
  induction s with
  | nil => simp
  | cons d s ih =>
    intro h
    simp only [Index] at h
    split at h
    · cases h
    · rename_i hp
      simp [List.isPrefixOf] at hp
      cases hi : Index s [c] with
      | none => simp [hp, ih hi]
      | some m => simp [hi] at h

theorem Index_single_some {c : Nat} :
    ∀ {s : GoString} {m : Nat}, Index s [c] = some m → c ∉ s.take m ∧ m < s.length := by
  intro s
  induction s with
  | nil => intro m h; simp [Index] at h
  | cons d s ih =>
    intro m h
    simp only [Index] at h
    split at h
    · injection h with h; subst h; simp
    · rename_i hp
      simp [List.isPrefixOf] at hp
      cases hi : Index s [c] with
      | none => simp [hi] at h
      | some m' =>
        simp [hi] at h
        subst h
        have := ih hi
        simp [List.take_succ_cons, hp, this.1, this.2]

theorem Index_single_of_not_mem {c : Nat} :
    ∀ {s : GoString}, c ∉ s → Index s [c] = none := by
  intro s
  induction s with
  | nil => intro _; simp [Index]
  | cons d s ih =>
    intro h
    simp at h
    simp [Index, List.isPrefixOf, h.1, ih h.2]

theorem Index_single_append {c : Nat} :
    ∀ {a : GoString} (b : GoString), c ∉ a → Index (a ++ c :: b) [c] = some a.length := by
  intro a
  induction a with
  | nil => intro b _; simp [Index, List.isPrefixOf]
  | cons d a ih =>
    intro b h
    simp at h
    simp [Index, List.isPrefixOf, h.1, ih b h.2]

theorem splitLoop_two {sep : GoString} {k : Nat} {s : GoString}
    (h : 2 ≤ (splitLoop sep k s).length) :
    ∃ m, Index s sep = some m ∧
      splitLoop sep k s = s.take m :: splitLoop sep (k - 1) (s.drop (m + sep.length)) := by
  cases k with
  | zero => simp [splitLoop] at h
  | succ k =>
    simp only [splitLoop] at h ⊢
    cases hi : Index s sep with
    | none => simp [hi] at h
    | some m => exact ⟨m, rfl, by simp⟩

theorem splitLoop_head_not_mem {c : Nat} {k : Nat} {s p : GoString}
    (hk : k = 0 → c ∉ s) (h : (splitLoop [c] k s)[0]? = some p) : c ∉ p := by
  cases k with
  | zero =>
    simp [splitLoop] at h
    subst h
    exact hk rfl
  | succ k =>
    simp only [splitLoop] at h
    cases hi : Index s [c] with
    | none =>
      simp [hi] at h
      subst h
      exact Index_single_none hi
    | some m =>
      simp [hi] at h
      subst h
      exact (Index_single_some hi).1

theorem Count_single_eq_zero {c : Nat} {s : GoString} (h : Count s [c] = 0) : c ∉ s := by
  simp only [Count] at h
  cases s with
  | nil => simp
  | cons d s =>
    simp [countLoop] at h
    cases hi : Index (d :: s) [c] with
    | none => exact Index_single_none hi
    | some m => simp [hi] at h

/-- The pieces returned by `Split` around a one-byte separator: when there are at
least two, the first one is the text before the first separator. -/
theorem Split_single_two {c : Nat} {s : GoString} (h : 2 ≤ (Split s [c]).length) :
    ∃ m rest, Index s [c] = some m ∧ Split s [c] = s.take m :: rest := by
  simp only [Split, genSplit] at h ⊢
  simp at h ⊢
  obtain ⟨m, hm, heq⟩ := splitLoop_two h
  exact ⟨m, hm, _, heq⟩

/-- The first piece returned by `Split` around a one-byte separator does not
contain the separator. -/
theorem Split_single_head_not_mem {c : Nat} {s p : GoString}
    (h : (Split s [c])[0]? = some p) : c ∉ p := by
  simp only [Split, genSplit] at h
  simp at h
  refine splitLoop_head_not_mem ?_ h
  intro hk
  split at hk
  · have : s = [] := by
      cases s with
      | nil => rfl
      | cons d s => simp at hk
    simp [this]
  · exact Count_single_eq_zero (by omega)

end strings

section Literals

open strings

/-! ### Literals of the source -/

theorem lit_sep : lit "://" = [58, 47, 47] := by decide
theorem lit_https_sep : lit "https://" = [104, 116, 116, 112, 115, 58, 47, 47] := by decide
theorem lit_http_sep : lit "http://" = [104, 116, 116, 112, 58, 47, 47] := by decide
theorem lit_https : lit "https" = [104, 116, 116, 112, 115] := by decide
theorem lit_dot : lit "." = [46] := by decide
theorem lit_slashes : lit "//" = [47, 47] := by decide

theorem HasPrefix_iff {s p : GoString} : HasPrefix s p = true ↔ ∃ t, s = p ++ t := by
  unfold HasPrefix
  rw [ List.isPrefixOf_iff_prefix]
  constructor
  · rintro ⟨t, ht⟩; exact ⟨t, ht.symm⟩
  · rintro ⟨t, ht⟩; exact ⟨t, ht.symm⟩

end Literals

namespace strings

theorem takeWhile_ne_append (c : Nat) :
    ∀ s : GoString, c ∈ s →
      ∃ a b, s = a ++ c :: b ∧ c ∉ a ∧ s.takeWhile (· ≠ c) = a ∧
        (s.dropWhile (· ≠ c)).drop 1 = b := by
  intro s
  induction s with
  | nil => intro h; simp at h
  | cons d s ih =>
    intro h
    by_cases hd : d = c
    · subst hd
      exact ⟨[], s, by simp, by simp, by simp [List.takeWhile], by simp [List.dropWhile]⟩
    · have hm : c ∈ s := by
        simp at h
        rcases h with h | h
        · exact absurd h.symm hd
        · exact h
      obtain ⟨a, b, hs, hn, ha, hb⟩ := ih hm
      have hne : (decide (d ≠ c)) = true := by simp [hd]
      refine ⟨d :: a, b, by rw [hs]; rfl, ?_, ?_, ?_⟩
      · simp only [List.mem_cons, not_or]
        exact ⟨fun e => hd e.symm, hn⟩
      · simp only [List.takeWhile, hne]
        rw [ha]
      · simp only [List.dropWhile, hne]
        exact hb

theorem takeWhile_ne_of_not_mem (c : Nat) :
    ∀ s : GoString, c ∉ s → s.takeWhile (· ≠ c) = s := by
  intro s
  induction s with
  | nil => intro _; rfl
  | cons d s ih =>
    intro h
    simp at h
    have hne : (decide (d ≠ c)) = true := by simp [Ne.symm h.1]
    simp only [List.takeWhile, hne]
    rw [ih h.2]

theorem splitLoop_single_of_mem {c : Nat} (k : Nat) {s : GoString} (h : c ∈ s) :
    splitLoop [c] (k + 1) s =
      s.takeWhile (· ≠ c) :: splitLoop [c] k ((s.dropWhile (· ≠ c)).drop 1) := by
  obtain ⟨a, b, hs, hn, ha, hb⟩ := takeWhile_ne_append c s h
  rw [ha, hb]
  subst hs
  have hi : Index (a ++ c :: b) [c] = some a.length := Index_single_append _ hn
  simp only [splitLoop, hi, List.length_singleton]
  congr 1
  · simp
  · simp

theorem splitLoop_single_of_not_mem {c : Nat} (k : Nat) {s : GoString} (h : c ∉ s) :
    splitLoop [c] k s = [s] := by
  cases k with
  | zero => rfl
  | succ k => simp [splitLoop, Index_single_of_not_mem h]

/-- `SplitN(buf, ".", 3)` of a text without a dot is the text alone. -/
theorem SplitN_three_of_not_mem {buf : GoString} (h : 46 ∉ buf) :
    SplitN buf (lit ".") 3 = [buf] := by
  rw [lit_dot]
  simp only [SplitN, genSplit]
  simp
  exact splitLoop_single_of_not_mem _ h

/-- `SplitN(buf, ".", 3)` of a text with a dot starts with the text before the
first dot and the text between the first dot and the next. -/
theorem SplitN_three_of_mem {buf : GoString} (h : 46 ∈ buf) :
    ∃ tail, SplitN buf (lit ".") 3 = firstField buf :: secondField buf :: tail := by
  rw [lit_dot]
  simp only [SplitN, genSplit, firstField, secondField, Char.reduceToNat]
  simp only [show ((3 : Int) = 0) = False by simp, if_false, show ([46] : GoString) ≠ [] by simp,
    not_false_eq_true, show ¬ ((3 : Int) < 0) by simp, show (3 : Int).toNat = 3 by rfl]
  have hlen : 1 ≤ buf.length := List.length_pos_of_mem h
  by_cases hafter : 46 ∈ (buf.dropWhile (· ≠ 46)).drop 1
  · have h2 : 2 ≤ buf.length := by
      obtain ⟨a, b, hs, _, _, hb⟩ := takeWhile_ne_append 46 buf h
      rw [hb] at hafter
      have := List.length_pos_of_mem hafter
      have hl := congrArg List.length hs
      simp at hl
      omega
    have hn : ¬ (3 > buf.length + 1) := by omega
    simp only [hn, if_false]
    rw [show 3 - 1 = 1 + 1 by rfl, splitLoop_single_of_mem 1 h, splitLoop_single_of_mem 0 hafter]
    exact ⟨_, rfl⟩
  · have hk : ∃ k, (if 3 > buf.length + 1 then buf.length + 1 else 3) - 1 = k + 1 := by
      split
      · exact ⟨buf.length - 1, by omega⟩
      · exact ⟨1, rfl⟩
    obtain ⟨k, hk⟩ := hk
    rw [hk, splitLoop_single_of_mem k h, splitLoop_single_of_not_mem k hafter,
      takeWhile_ne_of_not_mem 46 _ hafter]
    exact ⟨_, rfl⟩

theorem countLoop_single (c : Nat) :
    ∀ (k : Nat) (s : GoString), s.length ≤ k → countLoop [c] k s = s.count c := by
  intro k
  induction k with
  | zero =>
    intro s hs
    have : s = [] := List.length_eq_zero.mp (by omega)
    subst this
    simp [countLoop]
  | succ k ih =>
    intro s hs
    by_cases hm : c ∈ s
    · obtain ⟨a, b, hab, hn, _, _⟩ := takeWhile_ne_append c s hm
      subst hab
      have hi : Index (a ++ c :: b) [c] = some a.length := Index_single_append _ hn
      simp only [countLoop, hi, List.length_singleton]
      have hd : List.drop (a.length + 1) (a ++ c :: b) = b := by simp
      rw [hd, ih b (by simp at hs; omega)]
      simp [List.count_append, List.count_eq_zero_of_not_mem hn]
    · simp [countLoop, Index_single_of_not_mem hm, List.count_eq_zero_of_not_mem hm]

/-- `Count` of a one-byte string is the number of occurrences of the byte: the
iteration bound of `countLoop` is never exhausted. -/
theorem Count_single (c : Nat) (s : GoString) : Count s [c] = s.count c := by
  simp [Count, countLoop_single c s.length s (le_refl _)]

theorem splitLoop_single_count (c : Nat) :
    ∀ (k : Nat) (s : GoString), s.count c = k →
      (splitLoop [c] k s).length = k + 1 ∧ (∀ p ∈ splitLoop [c] k s, c ∉ p) ∧
        [c].intercalate (splitLoop [c] k s) = s := by
  intro k
  induction k with
  | zero =>
    intro s hs
    have hn : c ∉ s := List.count_eq_zero.mp hs
    simp [splitLoop, hn, List.intercalate]
  | succ k ih =>
    intro s hs
    have hm : c ∈ s := List.count_pos_iff.mp (by omega)
    rw [splitLoop_single_of_mem k hm]
    obtain ⟨a, b, hab, hn, ha, hb⟩ := takeWhile_ne_append c s hm
    rw [ha, hb]
    have hcb : b.count c = k := by
      rw [hab] at hs
      simp [List.count_append, List.count_eq_zero_of_not_mem hn] at hs
      exact hs
    obtain ⟨h1, h2, h3⟩ := ih b hcb
    refine ⟨by simp [h1], ?_, ?_⟩
    · intro p hp
      simp only [List.mem_cons] at hp
      rcases hp with rfl | hp
      · exact hn
      · exact h2 p hp
    · match hsl : splitLoop [c] k b, h1 with
      | [], h1 => simp at h1
      | q :: qs, _ =>
        rw [hsl] at h3
        simp only [List.intercalate, List.intersperse_cons_cons, List.flatten_cons] at h3 ⊢
        rw [h3, hab]
        simp

/-- `Split` around a one-byte separator: one piece more than there are
separators, no separator inside a piece, and the pieces joined by the separator
give back the string. -/
theorem Split_single_spec (c : Nat) (s : GoString) :
    (Split s [c]).length = s.count c + 1 ∧ (∀ p ∈ Split s [c], c ∉ p) ∧
      [c].intercalate (Split s [c]) = s := by
  have hle : s.count c ≤ s.length := List.count_le_length c s
  have : Split s [c] = splitLoop [c] (s.count c) s := by
    simp only [Split, genSplit, Count_single]
    have h : ¬ (s.count c + 1 > s.length + 1) := by omega
    simp [h]
  rw [this]
  exact splitLoop_single_count c _ s rfl

end strings

/-! ## Properties of the URL parser -/

namespace url

open strings encoding

theorem lit_percent25 : lit "%25" = [37, 50, 53] := by decide

theorem ishex_ne_slash {h : Nat} (hh : ishex h = true) : h ≠ 47 := by
  intro e
  subst e
  simp [ishex] at hh

theorem unhex_lt (h : Nat) : unhex h < 16 := by
  unfold unhex
  simp only [Char.reduceToNat]
  split
  · omega
  · split
    · omega
    · split <;> omega

theorem byte_eq_slash : ∀ a < 16, ∀ b < 16, (a <<< 4 ||| b) % 256 = 47 → a = 2 ∧ b = 15 := by
  decide

theorem shouldEscape_slash_host : shouldEscape 47 encodeHost = true := by decide

/-- An escape accepted in a host or in a zone does not decode to `/`. -/
theorem decoded_ne_slash {mode : encoding} (hm : mode = encodeHost ∨ mode = encodeZone)
    {h1 h2 : Nat}
    (hhost : ¬(mode = encodeHost ∧ unhex h1 < 8 ∧ [37, h1, h2] ≠ lit "%25"))
    (hzone : ¬(mode = encodeZone ∧ [37, h1, h2] ≠ lit "%25" ∧
            (unhex h1 <<< 4 ||| unhex h2) % 256 ≠ 32 ∧
            shouldEscape ((unhex h1 <<< 4 ||| unhex h2) % 256) encodeHost = true)) :
    (unhex h1 <<< 4 ||| unhex h2) % 256 ≠ 47 := by
  intro hv
  obtain ⟨ha, hb⟩ := byte_eq_slash _ (unhex_lt h1) _ (unhex_lt h2) hv
  have key : [37, h1, h2] = lit "%25" := by
    by_contra hne
    rcases hm with hm | hm
    · exact hhost ⟨hm, by omega, hne⟩
    · exact hzone ⟨hm, hne, by omega, by rw [hv]; exact shouldEscape_slash_host⟩
  rw [lit_percent25] at key
  simp at key
  obtain ⟨_, rfl⟩ := key
  simp [unhex] at hb

theorem unescapeScan_cons (mode : encoding) (c : Nat) (s : GoString) :
    unescapeScan mode (c :: s) =
      if c = 37 then
        match s with
        | h1 :: h2 :: s' =>
          if !ishex h1 || !ishex h2 then .error (.EscapeError ((c :: s).take 3))
          else if mode = encodeHost ∧ unhex h1 < 8 ∧ [c, h1, h2] ≠ lit "%25" then
            .error (.EscapeError [c, h1, h2])
          else if mode = encodeZone ∧ [c, h1, h2] ≠ lit "%25" ∧
              (unhex h1 <<< 4 ||| unhex h2) % 256 ≠ 32 ∧
              shouldEscape ((unhex h1 <<< 4 ||| unhex h2) % 256) encodeHost then
            .error (.EscapeError [c, h1, h2])
          else
            match unescapeScan mode s' with
            | .error e => .error e
            | .ok (n, hasPlus) => .ok (n + 1, hasPlus)
        | _ => .error (.EscapeError ((c :: s).take 3))
      else if c = 43 then
        match unescapeScan mode s with
        | .error e => .error e
        | .ok (n, _) => .ok (n, decide (mode = encodeQueryComponent))
      else if (mode = encodeHost ∨ mode = encodeZone) ∧ c < 0x80 ∧ shouldEscape c encodeHost then
        .error (.InvalidHostError [c])
      else unescapeScan mode s := by
  rw [unescapeScan.eq_def]
  simp only [Char.reduceToNat]
  rfl

theorem unescapeBuild_cons (mode : encoding) (c : Nat) (s : GoString) :
    unescapeBuild mode (c :: s) =
      if c = 37 then
        match s with
        | h1 :: h2 :: s' => (unhex h1 <<< 4 ||| unhex h2) % 256 :: unescapeBuild mode s'
        | _ => []
      else if c = 43 then
        (if mode = encodeQueryComponent then 32 else 43) :: unescapeBuild mode s
      else c :: unescapeBuild mode s := by
  rw [unescapeBuild.eq_def]
  simp only [Char.reduceToNat]
  rfl

theorem unescapeScan_not_slash {mode : encoding} (hm : mode = encodeHost ∨ mode = encodeZone) :
    ∀ (n : Nat) (s : GoString), s.length ≤ n → ∀ r, unescapeScan mode s = .ok r →
      47 ∉ s ∧ 47 ∉ unescapeBuild mode s := by
  intro n
  induction n with
  | zero =>
    intro s hs r _
    have : s = [] := List.length_eq_zero.mp (by omega)
    subst this
    simp [unescapeBuild]
  | succ n ih =>
    intro s hs r h
    have hq : mode ≠ encodeQueryComponent := by
      rcases hm with hm | hm <;> simp [hm]
    cases s with
    | nil => simp [unescapeBuild]
    | cons c s =>
      rw [unescapeScan_cons] at h
      rw [unescapeBuild_cons]
      split at h
      · rename_i hc
        subst hc
        simp only [if_true]
        split at h
        · rename_i h1 h2 s'
          split at h
          · cases h
          · rename_i hx
            split at h
            · cases h
            · rename_i hhost
              split at h
              · cases h
              · rename_i hzone
                cases hrec : unescapeScan mode s' with
                | error e => simp [hrec] at h
                | ok r' =>
                  have := ih s' (by simp at hs; omega) r' hrec
                  simp at hx
                  have d := decoded_ne_slash hm hhost (by simpa using hzone)
                  simp [this.1, this.2, Ne.symm (ishex_ne_slash hx.1),
                    Ne.symm (ishex_ne_slash hx.2), Ne.symm d]
        · cases h
      · rename_i hc
        simp only [if_neg hc]
        split at h
        · rename_i hp
          subst hp
          simp only [if_true]
          cases hrec : unescapeScan mode s with
          | error e => simp [hrec] at h
          | ok r' =>
            have := ih s (by simp at hs; omega) r' hrec
            simp [this.1, this.2, hq]
        · rename_i hp
          simp only [if_neg hp]
          split at h
          · cases h
          · rename_i hesc
            have := ih s (by simp at hs; omega) r h
            have hc47 : c ≠ 47 := by
              intro e
              subst e
              exact hesc ⟨hm, by omega, shouldEscape_slash_host⟩
            simp [this.1, this.2, Ne.symm hc47]

/-- A host or zone accepted by `unescape` decodes to a string without `/`. -/
theorem unescape_not_slash {mode : encoding} (hm : mode = encodeHost ∨ mode = encodeZone)
    {s t : GoString} (h : unescape s mode = .ok t) : 47 ∉ t := by
  unfold unescape at h
  cases hs : unescapeScan mode s with
  | error e => simp [hs] at h
  | ok r =>
    have := unescapeScan_not_slash hm s.length s (le_refl _) r hs
    simp only [hs] at h
    split at h
    · cases h; exact this.1
    · cases h; exact this.2

theorem parseHost_not_slash {host h : GoString} (hp : parseHost host = .ok h) : 47 ∉ h := by
  have hH : ∀ {s t : GoString}, unescape s encodeHost = .ok t → 47 ∉ t :=
    fun {_ _} => unescape_not_slash (Or.inl rfl)
  have hZ : ∀ {s t : GoString}, unescape s encodeZone = .ok t → 47 ∉ t :=
    fun {_ _} => unescape_not_slash (Or.inr rfl)
  unfold parseHost at hp
  split at hp
  · split at hp
    · cases hp
    · simp only at hp
      split at hp
      · cases hp
      · split at hp
        · split at hp
          · cases hp
          · rename_i host1 h1
            split at hp
            · cases hp
            · rename_i host2 h2
              split at hp
              · cases hp
              · rename_i host3 h3
                cases hp
                simp [hH h1, hZ h2, hH h3]
        · exact hH hp
  · split at hp
    · simp only at hp
      split at hp
      · cases hp
      · exact hH hp
    · exact hH hp

theorem parseAuthority_not_slash {authority host : GoString} {user : Option Userinfo}
    (hp : parseAuthority authority = .ok (user, host)) : 47 ∉ host := by
  unfold parseAuthority at hp
  simp only at hp
  split at hp
  · cases hp
  · rename_i host' hh
    have hs := parseHost_not_slash hh
    repeat' split at hp
    all_goals (cases hp; first | exact hs | skip)

theorem setPath_ok {u uri : URL} {p : GoString} (h : setPath u p = .ok uri) :
    uri.Scheme = u.Scheme ∧ uri.Host = u.Host := by
  unfold setPath at h
  split at h
  · cases h
  · cases h; simp

theorem parseAuthorityAndPath_ok {u uri : URL} {rest : GoString} (hu : u.Host = [])
    (h : parseAuthorityAndPath u rest true = .ok uri) :
    uri.Scheme = u.Scheme ∧ 47 ∉ uri.Host ∧
      (uri.Host ≠ [] → u.Scheme ≠ [] ∧ HasPrefix rest (lit "//") = true) := by
  unfold parseAuthorityAndPath at h
  split at h
  · rename_i hc
    simp at hc
    simp only at h
    split at h
    · cases h
    · rename_i user host ha
      have := setPath_ok h
      simp only at this
      refine ⟨this.1, ?_, fun _ => ⟨hc.1, hc.2⟩⟩
      rw [this.2]
      exact parseAuthority_not_slash ha
  · split at h
    · have := setPath_ok h
      simp only at this
      simp [this.1, this.2, hu]
    · have := setPath_ok h
      simp [this.1, this.2, hu]

theorem HasPrefix_of_take {p s : GoString} {n : Nat} (h : HasPrefix (s.take n) p = true) :
    HasPrefix s p = true := by
  unfold HasPrefix at h ⊢
  rw [ List.isPrefixOf_iff_prefix] at h ⊢
  exact h.trans ( List.take_prefix n s)

theorem ToLower_eq_nil {s : GoString} : ToLower s = [] ↔ s = [] := by
  simp [ToLower]

/-- What a successful `parse` of a request URI tells about the scheme and the host. -/
theorem parse_ok {rawURL : GoString} {uri : URL} (h : parse rawURL true = .ok uri) :
    ∃ s rest, getScheme rawURL = .ok (s, rest) ∧ uri.Scheme = ToLower s ∧ 47 ∉ uri.Host ∧
      (uri.Host ≠ [] → s ≠ [] ∧ HasPrefix rest (lit "//") = true) := by
  unfold parse at h
  split at h
  · cases h
  · split at h
    · cases h
    · split at h
      · rename_i hstar
        cases h
        subst hstar
        exact ⟨[], lit "*", rfl, rfl, by simp, by simp⟩
      · split at h
        · cases h
        · rename_i s rest hg
          refine ⟨s, rest, hg, ?_⟩
          simp only at h
          generalize hq : (if (HasSuffix rest (lit "?") && Count rest (lit "?") == 1) = true then
              (rest.take (rest.length - 1), true, ([] : GoString))
            else ((Cut rest (lit "?")).1, false, (Cut rest (lit "?")).2.1)) = q at h
          obtain ⟨rest', fq, rq⟩ := q
          have hpre : ∀ p, HasPrefix rest' p = true → HasPrefix rest p = true := by
            intro p hp
            split at hq
            · cases hq
              exact HasPrefix_of_take hp
            · have : rest' = (Cut rest (lit "?")).1 := by cases hq; rfl
              subst this
              unfold Cut at hp
              split at hp
              · exact HasPrefix_of_take hp
              · exact hp
          simp only at h
          split at h
          · split at h
            · cases h
              simp
            · simp at h
          · have := parseAuthorityAndPath_ok (by simp) h
            simp only at this
            refine ⟨this.1, this.2.1, fun hne => ?_⟩
            have := this.2.2 hne
            exact ⟨fun e => this.1 (by simp [e, ToLower]), hpre _ this.2⟩

end url

/-! ## Properties of the scheme scanner -/

section Scheme

open strings url

theorem validScheme_all {s : GoString} (h : validScheme s = true) :
    ∀ c ∈ s, isSchemeByte c = true := by
  cases s with
  | nil => simp
  | cons c cs =>
    simp [validScheme] at h
    intro d hd
    simp at hd
    rcases hd with rfl | hd
    · simp only [isSchemeByte, Char.reduceToNat, decide_eq_true_eq]
      rcases h.1 with h1 | h1
      · exact Or.inl h1
      · exact Or.inr (Or.inl h1)
    · exact h.2 d hd

theorem takeWhile_scheme_append {s : GoString} (rest : GoString)
    (h : ∀ c ∈ s, isSchemeByte c = true) :
    (s ++ 58 :: rest).takeWhile isSchemeByte = s ∧
      (s ++ 58 :: rest).dropWhile isSchemeByte = 58 :: rest := by
  induction s with
  | nil =>
    have : isSchemeByte 58 = false := by decide
    simp [List.takeWhile, List.dropWhile, this]
  | cons c cs ih =>
    have hc := h c (by simp)
    have := ih (fun d hd => h d (by simp [hd]))
    simp [List.takeWhile, List.dropWhile, hc, this]

/-- The computable test `startsWithScheme` says that the endpoint is a URI scheme
followed by `"://"`. -/
theorem startsWithScheme_iff {e : GoString} :
    startsWithScheme e = true ↔ ∃ s rest, validScheme s = true ∧ e = s ++ lit "://" ++ rest := by
  constructor
  · intro h
    simp only [startsWithScheme, Bool.and_eq_true] at h
    obtain ⟨t, ht⟩ := HasPrefix_iff.mp h.2
    refine ⟨e.takeWhile isSchemeByte, t, h.1, ?_⟩
    rw [List.append_assoc, ← ht, List.takeWhile_append_dropWhile]
  · rintro ⟨s, rest, hs, rfl⟩
    have := takeWhile_scheme_append (47 :: 47 :: rest) (validScheme_all hs)
    simp only [startsWithScheme, lit_sep, List.append_assoc, List.cons_append, List.nil_append,
      this.1, this.2, hs, Bool.true_and]
    exact HasPrefix_iff.mpr ⟨rest, rfl⟩

theorem getSchemeLoop_spec (rawURL : GoString) :
    ∀ (t pre : GoString), rawURL = pre ++ t → (∀ c ∈ pre, isSchemeByte c = true) →
      (pre ≠ [] → validScheme pre = true) →
      ∀ {s rest : GoString}, getSchemeLoop rawURL pre.length t = .ok (s, rest) → s ≠ [] →
        validScheme s = true ∧ rawURL = s ++ 58 :: rest := by
  intro t
  induction t with
  | nil =>
    intro pre _ _ _ s rest h hs
    simp [getSchemeLoop] at h
    exact absurd h.1 hs
  | cons c t ih =>
    intro pre hraw hall hvalid s rest h hs
    have hrec : ∀ (hc : isSchemeByte c = true), (pre = [] → validScheme [c] = true) →
        getSchemeLoop rawURL (pre.length + 1) t = .ok (s, rest) →
        validScheme s = true ∧ rawURL = s ++ 58 :: rest := by
      intro hc hfirst h'
      have hlen : (pre ++ [c]).length = pre.length + 1 := by simp
      rw [← hlen] at h'
      refine ih (pre ++ [c]) (by simp [hraw]) ?_ ?_ h' hs
      · intro d hd
        simp at hd
        rcases hd with hd | rfl
        · exact hall d hd
        · exact hc
      · intro _
        cases pre with
        | nil => simpa using hfirst rfl
        | cons p ps =>
          have := hvalid (by simp)
          simp [validScheme] at this ⊢
          exact ⟨this.1, this.2, hc⟩
    rw [getSchemeLoop] at h
    simp only [Char.reduceToNat] at h
    split at h
    · rename_i hl
      refine hrec ?_ ?_ h
      · simp only [isSchemeByte, Char.reduceToNat, decide_eq_true_eq]
        rcases hl with hl | hl
        · exact Or.inl hl
        · exact Or.inr (Or.inl hl)
      · intro _
        simp [validScheme, hl]
    · split at h
      · rename_i hd
        split at h
        · simp at h
          exact absurd h.1 hs
        · rename_i hi
          refine hrec ?_ ?_ h
          · simp only [isSchemeByte, Char.reduceToNat, decide_eq_true_eq]
            exact Or.inr (Or.inr hd)
          · intro hp
            simp [hp] at hi
      · split at h
        · rename_i hcolon
          split at h
          · cases h
          · rename_i hi
            simp at h
            obtain ⟨h1, h2⟩ := h
            have hpre : pre ≠ [] := by
              intro e; simp [e] at hi
            have e1 : List.take pre.length rawURL = pre := by simp [hraw]
            have e2 : List.drop (pre.length + 1) rawURL = t := by
              rw [hraw, show pre ++ c :: t = (pre ++ [c]) ++ t by simp]
              rw [List.drop_append_of_le_length (by simp)]
              simp
            rw [e1] at h1
            rw [e2] at h2
            subst h1 h2 hcolon
            exact ⟨hvalid hpre, hraw⟩
        · simp at h
          exact absurd h.1 hs

/-- A non-empty scheme found by `getScheme` is a URI scheme, and the URL is that
scheme, a colon, and the rest. -/
theorem getScheme_spec {rawURL s rest : GoString} (h : getScheme rawURL = .ok (s, rest))
    (hs : s ≠ []) : validScheme s = true ∧ rawURL = s ++ 58 :: rest :=
  getSchemeLoop_spec rawURL rawURL [] rfl (by simp) (by simp) h hs

theorem getScheme_https (e : GoString) :
    getScheme (lit "https://" ++ e) = .ok (lit "https", lit "//" ++ e) := by
  simp [getScheme, getSchemeLoop, lit_https_sep, lit_https, lit_slashes]

theorem getScheme_http (e : GoString) :
    getScheme (lit "http://" ++ e) = .ok (lit "http", lit "//" ++ e) := by
  have : lit "http" = [104, 116, 116, 112] := by decide
  simp [getScheme, getSchemeLoop, lit_http_sep, this, lit_slashes]

theorem Contains_https (e : GoString) : Contains (lit "https://" ++ e) (lit "://") = true := by
  simp [Contains, Index, lit_https_sep, lit_sep, List.isPrefixOf]

theorem Contains_http (e : GoString) : Contains (lit "http://" ++ e) (lit "://") = true := by
  simp [Contains, Index, lit_http_sep, lit_sep, List.isPrefixOf]

end Scheme

/-! ## Properties of `strconv.Atoi` -/

namespace strconv

theorem foldl_digits_ge (ds : GoString) :
    ∀ n : Nat, n ≤ ds.foldl (fun n c => n * 10 + (c - 48)) n := by
  induction ds with
  | nil => intro n; simp
  | cons c ds ih =>
    intro n
    simp only [List.foldl_cons]
    have := ih (n * 10 + (c - 48))
    omega

/-- The digit loop of `ParseUint` in base ten: a range error as soon as the
leading digits exceed `maxVal`, otherwise the value of an all-digit string, and
a syntax error for any other string. -/
theorem parseUintLoop_ten (s0 : GoString) (maxVal : Nat) (hmax : maxVal < 2 ^ 64) :
    ∀ (s : GoString) (n : Nat), n ≤ maxVal →
      parseUintLoop s0 10 maxVal s n =
        if maxVal < (s.takeWhile isDigitByte).foldl (fun n c => n * 10 + (c - 48)) n then
          (maxVal, some (rangeError "ParseUint" s0))
        else if s.all isDigitByte then (s.foldl (fun n c => n * 10 + (c - 48)) n, none)
        else (0, some (syntaxError "ParseUint" s0)) := by
  intro s
  induction s with
  | nil =>
    intro n hn
    simp [parseUintLoop, Nat.not_lt.mpr hn]
  | cons c s ih =>
    intro n hn
    by_cases hd : 48 ≤ c ∧ c ≤ 57
    · have hdig : isDigitByte c = true := by simp [isDigitByte, hd]
      have hge := foldl_digits_ge (s.takeWhile isDigitByte)
      have h64 : (2 : Nat) ^ 64 = 18446744073709551616 := by norm_num
      have hcutv : ((2 : Nat) ^ 64 - 1) / 10 + 1 = 1844674407370955162 := by norm_num
      rw [h64] at hmax
      simp only [parseUintLoop, Char.reduceToNat, hd, and_self, true_or, if_true,
        List.takeWhile_cons, hdig, List.foldl_cons, List.all_cons, Bool.true_and, maxUint64,
        hcutv, h64, ge_iff_le, gt_iff_lt]
      have hd10 : ¬ (10 ≤ c - 48) := by omega
      simp only [hd10, if_false]
      by_cases hcut : 1844674407370955162 ≤ n
      · have := hge (n * 10 + (c - 48))
        have hV : maxVal < List.foldl (fun n c => n * 10 + (c - 48)) (n * 10 + (c - 48))
            (List.takeWhile isDigitByte s) := by omega
        simp [hcut, hV]
      · have hmul : n * 10 % 18446744073709551616 = n * 10 := Nat.mod_eq_of_lt (by omega)
        simp only [hcut, if_false, hmul]
        by_cases hov : (n * 10 + (c - 48)) % 18446744073709551616 < n * 10 ∨
            maxVal < (n * 10 + (c - 48)) % 18446744073709551616
        · have := hge (n * 10 + (c - 48))
          have hV : maxVal < List.foldl (fun n c => n * 10 + (c - 48)) (n * 10 + (c - 48))
              (List.takeWhile isDigitByte s) := by omega
          simp [hov, hV]
        · have hn1 : (n * 10 + (c - 48)) % 18446744073709551616 = n * 10 + (c - 48) := by
            omega
          simp only [hov, if_false]
          rw [hn1]
          exact ih (n * 10 + (c - 48)) (by omega)
    · have hdig : isDigitByte c = false := by
        simp only [isDigitByte, Char.reduceToNat, decide_eq_false_iff_not]; exact hd
      have hnot : ¬ maxVal < n := by omega
      simp only [parseUintLoop, Char.reduceToNat, hd, false_or, if_false, List.takeWhile_cons,
        hdig, List.foldl_nil, hnot, List.all_cons, Bool.false_and]
      split
      · have : 10 ≤ lower c - 97 + 10 := by omega
        simp [this, hnot]
      · simp [hnot]

theorem atoiFastLoop_eq :
    ∀ (s : GoString) (n : Nat), (∀ b ∈ s, b < 256) →
      atoiFastLoop s (n : Int) =
        if s.all isDigitByte then some ((s.foldl (fun n c => n * 10 + (c - 48)) n : Nat) : Int)
        else none := by
  intro s
  induction s with
  | nil => intro n _; simp [atoiFastLoop]
  | cons c s ih =>
    intro n hb
    have hc : c < 256 := hb c (by simp)
    have hs : ∀ b ∈ s, b < 256 := fun b h => hb b (by simp [h])
    by_cases hd : 48 ≤ c ∧ c ≤ 57
    · have hdig : isDigitByte c = true := by simp [isDigitByte, hd]
      have hch : (c + 256 - 48) % 256 = c - 48 := by omega
      have h9 : ¬ (9 < c - 48) := by omega
      simp only [atoiFastLoop, Char.reduceToNat, hch, gt_iff_lt, h9, if_false, List.all_cons,
        hdig, Bool.true_and, List.foldl_cons]
      have := ih (n * 10 + (c - 48)) hs
      rw [← this]
      congr 1
    · have hdig : isDigitByte c = false := by
        simp only [isDigitByte, Char.reduceToNat, decide_eq_false_iff_not]; exact hd
      have h9 : 9 < (c + 256 - 48) % 256 := by omega
      simp only [atoiFastLoop, Char.reduceToNat, gt_iff_lt, h9, if_true, List.all_cons, hdig,
        Bool.false_and]
      simp

theorem unsigned_eq (s : GoString) :
    unsigned s = if s.head? = some 43 ∨ s.head? = some 45 then s.drop 1 else s := by
  cases s with
  | nil => simp [unsigned]
  | cons c s => simp [unsigned]

theorem takeWhile_of_all {p : Nat → Bool} {s : GoString} (h : s.all p = true) :
    s.takeWhile p = s := by
  induction s with
  | nil => rfl
  | cons c s ih =>
    simp only [List.all_cons, Bool.and_eq_true] at h
    simp only [List.takeWhile, h.1]
    rw [ih h.2]

theorem ParseUint_ten_of_digits {w : Nat} (hw : w = 32 ∨ w = 64) {ds : GoString}
    (hne : ds ≠ []) (hall : ds.all isDigitByte = true) (hle : digitsValue ds ≤ 2 ^ w - 1) :
    ParseUint w ds 10 0 = (digitsValue ds, none) := by
  have hmax : 2 ^ w - 1 < 2 ^ 64 := by
    rcases hw with rfl | rfl <;> norm_num
  have hw0 : w ≠ 0 := by rcases hw with rfl | rfl <;> simp
  have := parseUintLoop_ten ds (2 ^ w - 1) hmax ds 0 (Nat.zero_le _)
  rw [takeWhile_of_all hall] at this
  simp only [ParseUint, hne, if_false, if_true, this]
  simp only [digitsValue, Char.reduceToNat] at hle ⊢
  simp [Nat.not_lt.mpr hle, hall]

theorem ParseUint_ten_syntax {w : Nat} (hw : w = 32 ∨ w = 64) {ds : GoString}
    (h : ¬(ds ≠ [] ∧ ds.all isDigitByte = true))
    (hle : digitsValue (ds.takeWhile isDigitByte) ≤ 2 ^ w - 1) :
    ParseUint w ds 10 0 = (0, some (syntaxError "ParseUint" ds)) := by
  have hmax : 2 ^ w - 1 < 2 ^ 64 := by
    rcases hw with rfl | rfl <;> norm_num
  by_cases hne : ds = []
  · simp [ParseUint, hne]
  · have hall : ¬ ds.all isDigitByte = true := fun ha => h ⟨hne, ha⟩
    have := parseUintLoop_ten ds (2 ^ w - 1) hmax ds 0 (Nat.zero_le _)
    simp only [ParseUint, hne, if_false, if_true, this]
    simp only [digitsValue, Char.reduceToNat] at hle
    simp [Nat.not_lt.mpr hle, hall]

/-- `Atoi` returns the value of a decimal integer that fits in `int`. -/
theorem Atoi_of_decimal {w : Nat} (hw : w = 32 ∨ w = 64) {s : GoString}
    (hb : ∀ b ∈ s, b < 256) {v : Int} (hv : decimalInteger s = some v)
    (hlo : -(2 : Int) ^ (w - 1) ≤ v) (hhi : v ≤ 2 ^ (w - 1) - 1) :
    Atoi w s = (v, none) := by
  unfold decimalInteger at hv
  split at hv
  swap
  · cases hv
  rename_i hdec
  obtain ⟨hne, hall⟩ := hdec
  injection hv with hv
  simp only [Char.reduceToNat] at hv
  have hun := unsigned_eq s
  have hsne : s ≠ [] := by
    intro e; subst e; simp [unsigned] at hne
  have hbu : ∀ b ∈ unsigned s, b < 256 := by
    intro b hbm
    rw [hun] at hbm
    split at hbm
    · exact hb b (List.mem_of_mem_drop hbm)
    · exact hb b hbm
  have hloop := atoiFastLoop_eq (unsigned s) 0 hbu
  simp only [hall, if_true, Nat.cast_zero] at hloop
  unfold Atoi
  simp only [Char.reduceToNat]
  split
  · -- fast path
    by_cases hsign : s.head? = some 45 ∨ s.head? = some 43
    · have hun' : unsigned s = s.drop 1 := by
        rw [hun]; simp [hsign.symm, Or.comm.mp hsign]
      have hlen : ¬ (unsigned s).length < 1 := by
        have := List.length_pos.mpr hne
        omega
      simp only [hsign, if_true, atoiFast, ← hun', hloop, Char.reduceToNat, hlen, if_false]
      rw [← hv]
      rfl
    · have hun' : unsigned s = s := by
        rw [hun]
        have : ¬ (s.head? = some 43 ∨ s.head? = some 45) := fun h => hsign (Or.comm.mp h)
        simp [this]
      simp only [hsign, if_false, atoiFast, Char.reduceToNat]
      rw [hun'] at hloop
      rw [hloop]
      rw [← hv, hun']
      rfl
  · -- slow path
    have hval : digitsValue (unsigned s) ≤ 2 ^ w - 1 := by
      have h1 : ((digitsValue (unsigned s) : Nat) : Int) ≤ 2 ^ (w - 1) := by
        split at hv <;> omega
      rcases hw with rfl | rfl
      · norm_num at h1 ⊢; omega
      · norm_num at h1 ⊢; omega
    have hpu := ParseUint_ten_of_digits hw hne hall hval
    have hw0 : w ≠ 0 := by rcases hw with rfl | rfl <;> simp
    rw [hun] at hpu
    simp only [ParseInt, hsne, if_false, Char.reduceToNat, hpu, hw0, if_true]
    rw [hun] at hv
    by_cases hneg : s.head? = some 45
    · simp only [hneg, if_true, true_or, or_true, not_true_eq_false, false_and, if_false,
        true_and] at hv ⊢
      have hc : ¬ (digitsValue (s.drop 1) > 2 ^ (w - 1)) := by
        have : ((digitsValue (s.drop 1) : Nat) : Int) ≤ 2 ^ (w - 1) := by omega
        exact_mod_cast Nat.not_lt.mpr (by exact_mod_cast this)
      simp only [hc, if_false]
      rw [hv]
    · simp only [hneg, if_false, not_false_eq_true, true_and, false_and] at hv ⊢
      have hc : ¬ (digitsValue (if s.head? = some 43 ∨ False then s.drop 1 else s) ≥
          2 ^ (w - 1)) := by
        have : ((digitsValue (if s.head? = some 43 ∨ False then s.drop 1 else s) : Nat) : Int)
            < 2 ^ (w - 1) := by
          simp only [or_false] at hv ⊢
          omega
        exact_mod_cast Nat.not_le.mpr (by exact_mod_cast this)
      simp only [or_false] at hc hv ⊢
      simp only [hc, if_false]
      rw [hv]

/-- `Atoi` reports a syntax error, with value `0`, for a string that is not a
decimal integer, provided its leading digits do not overflow the unsigned range
(otherwise the range error is found first). -/
theorem Atoi_of_not_decimal {w : Nat} (hw : w = 32 ∨ w = 64) {s : GoString}
    (hb : ∀ b ∈ s, b < 256) (hv : decimalInteger s = none)
    (hlead : digitsValue (leadingDigits s) ≤ 2 ^ w - 1) :
    Atoi w s = (0, some ⟨"Atoi", s, .ErrSyntax⟩) := by
  unfold decimalInteger at hv
  split at hv
  · cases hv
  rename_i hdec
  have hun := unsigned_eq s
  have hbu : ∀ b ∈ unsigned s, b < 256 := by
    intro b hbm
    rw [hun] at hbm
    split at hbm
    · exact hb b (List.mem_of_mem_drop hbm)
    · exact hb b hbm
  have hloop := atoiFastLoop_eq (unsigned s) 0 hbu
  simp only [Nat.cast_zero] at hloop
  unfold Atoi
  simp only [Char.reduceToNat]
  split
  · -- fast path
    rename_i hfast
    have hsne : s ≠ [] := by
      intro e; subst e; simp at hfast
    by_cases hsign : s.head? = some 45 ∨ s.head? = some 43
    · have hun' : unsigned s = s.drop 1 := by
        rw [hun]; simp [Or.comm.mp hsign]
      simp only [hsign, if_true, ← hun']
      split
      · rfl
      · rename_i hlen
        have hne : unsigned s ≠ [] := by
          intro e; rw [e] at hlen; simp at hlen
        have hall : ¬ (unsigned s).all isDigitByte = true := fun ha => hdec ⟨hne, ha⟩
        simp only [atoiFast, hloop, hall, if_false]
        rfl
    · have hun' : unsigned s = s := by
        rw [hun]
        have : ¬ (s.head? = some 43 ∨ s.head? = some 45) := fun h => hsign (Or.comm.mp h)
        simp [this]
      have hall : ¬ (unsigned s).all isDigitByte = true :=
        fun ha => hdec ⟨by rw [hun']; exact hsne, ha⟩
      rw [hun'] at hloop hall
      simp only [hsign, if_false, atoiFast, hloop, hall]
      rfl
  · -- slow path
    by_cases hsne : s = []
    · subst hsne
      simp [ParseInt, syntaxError]
    · have hpu := ParseUint_ten_syntax hw hdec hlead
      rw [hun] at hpu
      simp only [ParseInt, hsne, if_false, Char.reduceToNat, hpu, syntaxError]

end strconv

/-! ## Properties of `newWasabi` -/

namespace object

open strings url

/-- The client `newWasabi` builds from a parsed URI, its labels and a loaded
configuration. -/
theorem newWasabi_of_split {Cfg : Type}
    (Load : GoString → GoString → GoString → Except GoString Cfg)
    (endpoint accessKey secretKey token : GoString) {uri : URL}
    {bucket second region : GoString} {more : List GoString}
    (hp : ParseRequestURI (defaultScheme endpoint) = .ok uri)
    (hs : Split uri.Host (lit ".") = bucket :: second :: region :: more) :
    uri.Host = bucket ++ lit "." ++ uri.Host.drop (bucket.length + 1) ∧
    newWasabi Load endpoint accessKey secretKey token =
      match Load accessKey secretKey token with
      | .error err => .ret (none, some (.failedToLoadConfig err))
      | .ok awsCfg =>
        .ret (some (wasabiOf awsCfg bucket region
          (uri.Scheme ++ lit "://" ++ uri.Host.drop (bucket.length + 1))
          (ToLower uri.Scheme == lit "https")), none) := by
  have h2 : 2 ≤ (Split uri.Host [46]).length := by
    rw [← lit_dot, hs]; simp
  obtain ⟨m, rest, hm, hsplit⟩ := Split_single_two h2
  rw [← lit_dot, hs] at hsplit
  have hb : bucket = uri.Host.take m := by
    injection hsplit
  have hlt := (Index_single_some hm).2
  have hlen : bucket.length = m := by
    rw [hb, List.length_take]; omega
  have hhost := Index_eq_some hm
  constructor
  · rw [hlen, lit_dot, ← hb] at *
    simpa using hhost
  · have hle : ¬ (bucket.length + 1 > uri.Host.length) := by omega
    simp only [newWasabi, hp, hs, wasabiOf]
    simp [hle]

/-- Every successful construction comes from a parsed URI whose host has at least
three labels and from a loaded configuration. -/
theorem newWasabi_inv {Cfg : Type}
    (Load : GoString → GoString → GoString → Except GoString Cfg)
    (endpoint accessKey secretKey token : GoString) {c : wasabi Cfg} {err : Option error}
    (h : newWasabi Load endpoint accessKey secretKey token = .ret (some c, err)) :
    ∃ uri bucket second region more awsCfg,
      ParseRequestURI (defaultScheme endpoint) = .ok uri ∧
      Split uri.Host (lit ".") = bucket :: second :: region :: more ∧
      Load accessKey secretKey token = .ok awsCfg ∧ err = none ∧
      c = wasabiOf awsCfg bucket region
        (uri.Scheme ++ lit "://" ++ uri.Host.drop (bucket.length + 1))
        (ToLower uri.Scheme == lit "https") := by
  cases hp : ParseRequestURI (defaultScheme endpoint) with
  | error e => simp [newWasabi, hp] at h
  | ok uri =>
    match hs : Split uri.Host (lit ".") with
    | [] => simp [newWasabi, hp, hs] at h
    | [_] => simp [newWasabi, hp, hs] at h
    | [_, _] => simp [newWasabi, hp, hs] at h
    | bucket :: second :: region :: more =>
      have := (newWasabi_of_split Load endpoint accessKey secretKey token hp hs).2
      rw [this] at h
      cases hl : Load accessKey secretKey token with
      | error e => simp [hl] at h
      | ok awsCfg =>
        simp only [hl, Outcome.ret.injEq, Prod.mk.injEq, Option.some.injEq] at h
        exact ⟨uri, bucket, second, region, more, awsCfg, rfl, hs, rfl, h.2.symm, h.1.symm⟩

theorem ParseRequestURI_ok {rawURL : GoString} {uri : URL}
    (h : ParseRequestURI rawURL = .ok uri) : parse rawURL true = .ok uri := by
  unfold ParseRequestURI at h
  split at h
  · cases h
  · cases h; assumption

theorem defaultScheme_of_contains {e : GoString} (h : Contains e (lit "://") = true) :
    defaultScheme e = e := by
  simp [defaultScheme, h]

theorem defaultScheme_of_not_contains {e : GoString} (h : Contains e (lit "://") = false) :
    defaultScheme e = lit "https://" ++ e := by
  simp [defaultScheme, h]

/-- An endpoint whose parsed host is not empty and which contains `"://"` starts
with a scheme. -/
theorem startsWithScheme_of_host {e : GoString} {uri : URL}
    (hc : Contains e (lit "://") = true)
    (hp : ParseRequestURI (defaultScheme e) = .ok uri) (hh : uri.Host ≠ []) :
    startsWithScheme e = true := by
  rw [defaultScheme_of_contains hc] at hp
  obtain ⟨s, rest, hg, _, _, hs⟩ := parse_ok (ParseRequestURI_ok hp)
  obtain ⟨hne, hpre⟩ := hs hh
  obtain ⟨hv, he⟩ := getScheme_spec hg hne
  obtain ⟨t, ht⟩ := HasPrefix_iff.mp hpre
  refine startsWithScheme_iff.mpr ⟨s, t, hv, ?_⟩
  rw [he, ht, lit_slashes, lit_sep]
  simp

/-- An endpoint that does not start with a scheme and is accepted with a
non-empty host was parsed with the default scheme `https`. -/
theorem scheme_https_of_not_startsWithScheme {e : GoString} {uri : URL}
    (hn : startsWithScheme e = false)
    (hp : ParseRequestURI (defaultScheme e) = .ok uri) (hh : uri.Host ≠ []) :
    uri.Scheme = lit "https" := by
  cases hc : Contains e (lit "://") with
  | true =>
    have := startsWithScheme_of_host hc hp hh
    rw [hn] at this
    cases this
  | false =>
    rw [defaultScheme_of_not_contains hc] at hp
    obtain ⟨s, rest, hg, hsch, _, _⟩ := parse_ok (ParseRequestURI_ok hp)
    rw [getScheme_https] at hg
    injection hg with hg
    injection hg with h1 h2
    rw [hsch, ← h1]
    rfl

theorem host_ne_nil_of_split {host : GoString} {a b c : GoString} {more : List GoString}
    (hs : Split host (lit ".") = a :: b :: c :: more) : host ≠ [] := by
  intro e
  subst e
  have : Split [] (lit ".") = [[]] := rfl
  rw [this] at hs
  cases hs

theorem validScheme_ToLower {s : GoString} (h : validScheme s = true) :
    validScheme (ToLower s) = true := by
  cases s with
  | nil => simp [validScheme] at h
  | cons c cs =>
    simp only [validScheme, Char.reduceToNat, Bool.and_eq_true, decide_eq_true_eq,
      List.all_eq_true, ToLower, List.map_cons, List.mem_map, forall_exists_index, and_imp,
      forall_apply_eq_imp_iff₂, isSchemeByte, Bool.decide_or, Bool.or_eq_true] at h ⊢
    refine ⟨?_, ?_⟩
    · split <;> omega
    · intro d hd
      have := h.2 d hd
      split <;> omega

theorem ToLower_idem (s : GoString) : ToLower (ToLower s) = ToLower s := by
  simp only [ToLower, Char.reduceToNat, List.map_map]
  apply List.map_congr_left
  intro c _
  simp only [Function.comp]
  split
  · split <;> omega
  · rfl

/-! ## Specified properties of `pkg/object/wasabi.go` (C1 to C9) -/

/-- C1: for every endpoint that parses as a URI (after the scheme default) and
whose host splits on `.` into at least three labels, `newWasabi` takes the first
label as bucket and the third as region, and recomputes the endpoint as
scheme, `://` and the host without the bucket label and its dot: the bucket, a
dot and the recomputed host give back the original host.  The client is
returned when the configuration loads, the configuration error otherwise. -/
theorem newWasabi_derives_bucket_region_endpoint {Cfg : Type}
    (Load : GoString → GoString → GoString → Except GoString Cfg)
    (endpoint accessKey secretKey token : GoString) (uri : URL)
    (hparse : ParseRequestURI (defaultScheme endpoint) = .ok uri)
    (hlabels : 3 ≤ (Split uri.Host (lit ".")).length) :
    ∃ bucket second region more host',
      Split uri.Host (lit ".") = bucket :: second :: region :: more ∧
      uri.Host = bucket ++ lit "." ++ host' ∧
      newWasabi Load endpoint accessKey secretKey token =
        match Load accessKey secretKey token with
        | .error err => .ret (none, some (.failedToLoadConfig err))
        | .ok awsCfg =>
          .ret (some (wasabiOf awsCfg bucket region (uri.Scheme ++ lit "://" ++ host')
            (ToLower uri.Scheme == lit "https")), none) := by
  match hs : Split uri.Host (lit ".") with
  | [] => simp [hs] at hlabels
  | [_] => simp [hs] at hlabels
  | [_, _] => simp [hs] at hlabels
  | bucket :: second :: region :: more =>
    have := newWasabi_of_split Load endpoint accessKey secretKey token hparse hs
    exact ⟨bucket, second, region, more, _, rfl, this.1, this.2⟩

/-- The example of the specification, and C1 applied to it. -/
theorem newWasabi_derives_bucket_region_endpoint_witness :
    newWasabi staticConfig (lit "mybucket.s3.us-east-1.example.com") (lit "AK") (lit "SK")
        (lit "") =
      .ret (some (wasabiOf (lit "AK", lit "SK", lit "") (lit "mybucket") (lit "us-east-1")
        (lit "https://s3.us-east-1.example.com") true), none) ∧
    ParseRequestURI (defaultScheme (lit "mybucket.s3.us-east-1.example.com")) =
      .ok { Scheme := lit "https", Host := lit "mybucket.s3.us-east-1.example.com" } ∧
    3 ≤ (Split (lit "mybucket.s3.us-east-1.example.com") (lit ".")).length ∧
    ∃ bucket second region more host',
      Split (lit "mybucket.s3.us-east-1.example.com") (lit ".") =
        bucket :: second :: region :: more ∧
      lit "mybucket.s3.us-east-1.example.com" = bucket ++ lit "." ++ host' ∧
      newWasabi staticConfig (lit "mybucket.s3.us-east-1.example.com") (lit "AK") (lit "SK")
          (lit "") =
        match staticConfig (lit "AK") (lit "SK") (lit "") with
        | .error err => .ret (none, some (.failedToLoadConfig err))
        | .ok awsCfg =>
          .ret (some (wasabiOf awsCfg bucket region (lit "https" ++ lit "://" ++ host')
            (ToLower (lit "https") == lit "https")), none) :=
  ⟨rfl, rfl, by decide,
    newWasabi_derives_bucket_region_endpoint staticConfig
      (lit "mybucket.s3.us-east-1.example.com") (lit "AK") (lit "SK") (lit "")
      { Scheme := lit "https", Host := lit "mybucket.s3.us-east-1.example.com" } rfl
      (by decide)⟩

/-- C2, as stated, fails: `a.b.c/x://y` does not start with a scheme, yet it is
rejected while `https://a.b.c/x://y` is accepted. -/
theorem newWasabi_scheme_prefix_counterexample :
    startsWithScheme (lit "a.b.c/x://y") = false ∧
    newWasabi staticConfig (lit "a.b.c/x://y") [] [] [] =
      .ret (none, some (.invalidEndpoint (lit "a.b.c/x://y")
        ⟨"parse", lit "a.b.c/x://y", .errorString "invalid URI for request"⟩)) ∧
    newWasabi staticConfig (lit "https://" ++ lit "a.b.c/x://y") [] [] [] =
      .ret (some (wasabiOf ([], [], []) (lit "a") (lit "c") (lit "https://b.c") true), none) ∧
    newWasabi staticConfig (lit "a.b.c/x://y") [] [] [] ≠
      newWasabi staticConfig (lit "https://" ++ lit "a.b.c/x://y") [] [] [] := by
  have h1 : newWasabi staticConfig (lit "a.b.c/x://y") [] [] [] =
      .ret (none, some (.invalidEndpoint (lit "a.b.c/x://y")
        ⟨"parse", lit "a.b.c/x://y", .errorString "invalid URI for request"⟩)) := rfl
  have h2 : newWasabi staticConfig (lit "https://" ++ lit "a.b.c/x://y") [] [] [] =
      .ret (some (wasabiOf ([], [], []) (lit "a") (lit "c") (lit "https://b.c") true),
        none) := rfl
  refine ⟨by decide, h1, h2, ?_⟩
  rw [h1, h2]
  simp

/-- C2 (amended): for every endpoint that does not contain `"://"` and for all
credentials, `newWasabi` behaves on it exactly as on the same string prefixed
with `"https://"`: same panic, same error, or same client. -/
theorem newWasabi_default_scheme {Cfg : Type}
    (Load : GoString → GoString → GoString → Except GoString Cfg)
    (endpoint accessKey secretKey token : GoString)
    (h : Contains endpoint (lit "://") = false) :
    newWasabi Load endpoint accessKey secretKey token =
      newWasabi Load (lit "https://" ++ endpoint) accessKey secretKey token := by
  have h1 := defaultScheme_of_not_contains h
  have h2 := defaultScheme_of_contains (Contains_https endpoint)
  simp only [newWasabi, h1, h2]

/-- C2 (amended) applied to the endpoint of the specification's example. -/
theorem newWasabi_default_scheme_witness :
    Contains (lit "mybucket.s3.us-east-1.example.com") (lit "://") = false ∧
    newWasabi staticConfig (lit "mybucket.s3.us-east-1.example.com") (lit "AK") (lit "SK") [] =
      newWasabi staticConfig (lit "https://" ++ lit "mybucket.s3.us-east-1.example.com")
        (lit "AK") (lit "SK") [] :=
  ⟨by decide, newWasabi_default_scheme staticConfig _ _ _ _ (by decide)⟩

/-- An endpoint rejected by `url.ParseRequestURI` makes `newWasabi` return the
invalid-endpoint error and no client. -/
theorem newWasabi_invalid_endpoint {Cfg : Type}
    (Load : GoString → GoString → GoString → Except GoString Cfg)
    (endpoint accessKey secretKey token : GoString) {err : url.Error}
    (h : ParseRequestURI (defaultScheme endpoint) = .error err) :
    newWasabi Load endpoint accessKey secretKey token =
      .ret (none, some (.invalidEndpoint (defaultScheme endpoint) err)) := by
  simp only [newWasabi, h]

/-- C3: on the empty endpoint `newWasabi` does not return the invalid-endpoint
error: `"https://"` parses with an empty host, and indexing the third label
panics.  An endpoint the parser rejects, such as `not a uri`, does get the
invalid-endpoint error and no client. -/
theorem newWasabi_empty_endpoint_panics {Cfg : Type}
    (Load : GoString → GoString → GoString → Except GoString Cfg)
    (accessKey secretKey token : GoString) :
    ParseRequestURI (defaultScheme (lit "")) = .ok { Scheme := lit "https" } ∧
    newWasabi Load (lit "") accessKey secretKey token = .panic (.indexOutOfRange 2 1) ∧
    newWasabi Load (lit "not a uri") accessKey secretKey token =
      .ret (none, some (.invalidEndpoint (lit "https://not a uri")
        ⟨"parse", lit "https://not a uri", .InvalidHostError (lit " ")⟩)) :=
  ⟨rfl, rfl, rfl⟩

/-- C4: `SetStorageClass` returns the `notSupported` error, never `nil`, whatever
the client and the argument. -/
theorem SetStorageClass_notSupported {Cfg : Type} (s : wasabi Cfg) (sc : GoString) :
    s.SetStorageClass sc = some notSupported ∧ s.SetStorageClass sc ≠ none ∧
      ∀ (s' : wasabi Cfg) (sc' : GoString), s'.SetStorageClass sc' = s.SetStorageClass sc :=
  ⟨rfl, by simp [wasabi.SetStorageClass], fun _ _ => rfl⟩

/-- C5: `String()` is `"wasabi://"`, the bucket and `"/"`; and the bucket of a
client returned by `newWasabi` contains neither `/` nor `.`, so the final byte
is the only slash after `"wasabi://"`. -/
theorem wasabi_String_form {Cfg : Type} :
    (∀ s : wasabi Cfg, s.String = lit "wasabi://" ++ s.s3client.bucket ++ lit "/") ∧
    ∀ (Load : GoString → GoString → GoString → Except GoString Cfg)
      (endpoint accessKey secretKey token : GoString) (c : wasabi Cfg),
      newWasabi Load endpoint accessKey secretKey token = .ret (some c, none) →
        '/'.toNat ∉ c.s3client.bucket ∧ '.'.toNat ∉ c.s3client.bucket ∧
        c.String = lit "wasabi://" ++ c.s3client.bucket ++ ['/'.toNat] := by
  refine ⟨fun _ => rfl, ?_⟩
  intro Load endpoint accessKey secretKey token c h
  obtain ⟨uri, bucket, second, region, more, awsCfg, hp, hs, _, _, hc⟩ :=
    newWasabi_inv Load endpoint accessKey secretKey token h
  have hhost := (newWasabi_of_split Load endpoint accessKey secretKey token hp hs).1
  obtain ⟨_, _, _, _, hslash, _⟩ := parse_ok (ParseRequestURI_ok hp)
  have hb : c.s3client.bucket = bucket := by rw [hc]; rfl
  rw [hb]
  refine ⟨?_, ?_, ?_⟩
  · intro hmem
    apply hslash
    rw [hhost]
    simp [show '/'.toNat = 47 from rfl] at hmem
    simp [hmem]
  · have : (Split uri.Host [46])[0]? = some bucket := by
      rw [← lit_dot, hs]; rfl
    exact Split_single_head_not_mem this
  · rw [hc]; rfl

/-- C5 applied to the client built for the specification's example endpoint. -/
theorem wasabi_String_form_witness :
    newWasabi staticConfig (lit "mybucket.s3.us-east-1.example.com") (lit "AK") (lit "SK") [] =
      .ret (some (wasabiOf (lit "AK", lit "SK", []) (lit "mybucket") (lit "us-east-1")
        (lit "https://s3.us-east-1.example.com") true), none) ∧
    '/'.toNat ∉ lit "mybucket" ∧ '.'.toNat ∉ lit "mybucket" ∧
    (wasabiOf (lit "AK", lit "SK", ([] : GoString)) (lit "mybucket") (lit "us-east-1")
        (lit "https://s3.us-east-1.example.com") true).String = lit "wasabi://mybucket/" :=
  ⟨rfl,
    (wasabi_String_form.2 staticConfig (lit "mybucket.s3.us-east-1.example.com") (lit "AK")
      (lit "SK") [] _ rfl).1,
    (wasabi_String_form.2 staticConfig (lit "mybucket.s3.us-east-1.example.com") (lit "AK")
      (lit "SK") [] _ rfl).2.1,
    rfl⟩

/-- Whenever the parsed host has fewer than three labels, `newWasabi` panics at
`hostParts[2]`. -/
theorem newWasabi_panics_of_short_host {Cfg : Type}
    (Load : GoString → GoString → GoString → Except GoString Cfg)
    (endpoint accessKey secretKey token : GoString) {uri : URL}
    (hp : ParseRequestURI (defaultScheme endpoint) = .ok uri)
    (hs : (Split uri.Host (lit ".")).length < 3) :
    newWasabi Load endpoint accessKey secretKey token =
      .panic (.indexOutOfRange 2 (Split uri.Host (lit ".")).length) := by
  have h1 : 1 ≤ (Split uri.Host (lit ".")).length := by
    rw [lit_dot]
    simp only [Split, genSplit]
    simp
    generalize (if uri.Host.length < Count uri.Host [46] then uri.Host.length + 1
      else Count uri.Host [46] + 1) - 1 = k
    cases k with
    | zero => simp [splitLoop]
    | succ k =>
      simp only [splitLoop]
      split <;> simp
  match hsp : Split uri.Host (lit ".") with
  | [] => simp [hsp] at h1
  | [a] => simp [newWasabi, hp, hsp]
  | [a, b] => simp [newWasabi, hp, hsp]
  | _ :: _ :: _ :: _ =>
    simp only [hsp, List.length_cons] at hs
    omega

/-- C6: an endpoint that parses with fewer than three host labels does not yield
an empty region: `https://bucket.example` and `https://bucket` both make
`newWasabi` panic at `hostParts[2]`. -/
theorem newWasabi_short_host_panics {Cfg : Type}
    (Load : GoString → GoString → GoString → Except GoString Cfg)
    (accessKey secretKey token : GoString) :
    ParseRequestURI (defaultScheme (lit "https://bucket.example")) =
      .ok { Scheme := lit "https", Host := lit "bucket.example" } ∧
    newWasabi Load (lit "https://bucket.example") accessKey secretKey token =
      .panic (.indexOutOfRange 2 2) ∧
    newWasabi Load (lit "https://bucket") accessKey secretKey token =
      .panic (.indexOutOfRange 2 1) :=
  ⟨rfl, rfl, rfl⟩

/-- Whatever `newWasabi` returns is a client without an error or an error without
a client. -/
theorem newWasabi_all_or_nothing {Cfg : Type}
    (Load : GoString → GoString → GoString → Except GoString Cfg)
    (endpoint accessKey secretKey token : GoString) (r : Option (wasabi Cfg) × Option error)
    (h : newWasabi Load endpoint accessKey secretKey token = .ret r) :
    (∃ c, r = (some c, none)) ∨ (∃ e, r = (none, some e)) := by
  obtain ⟨c, e⟩ := r
  cases c with
  | some c =>
    obtain ⟨_, _, _, _, _, _, _, _, _, he, _⟩ :=
      newWasabi_inv Load endpoint accessKey secretKey token h
    exact Or.inl ⟨c, by rw [he]⟩
  | none =>
    right
    unfold newWasabi at h
    simp only at h
    repeat' split at h
    all_goals first
      | (cases h; exact ⟨_, rfl⟩)
      | cases h

/-- C7: on the endpoint `localhost` construction returns neither a client nor an
error: the host has one label and `newWasabi` panics. -/
theorem newWasabi_one_label_no_result {Cfg : Type}
    (Load : GoString → GoString → GoString → Except GoString Cfg)
    (accessKey secretKey token : GoString) :
    newWasabi Load (lit "localhost") accessKey secretKey token =
        .panic (.indexOutOfRange 2 1) ∧
      ∀ r, newWasabi Load (lit "localhost") accessKey secretKey token ≠ .ret r := by
  have h : newWasabi Load (lit "localhost") accessKey secretKey token =
      .panic (.indexOutOfRange 2 1) := rfl
  refine ⟨h, fun r hr => ?_⟩
  rw [h] at hr
  cases hr

/-- C8, as stated, fails: the endpoint `ftp://a.b.c` is accepted and the
recomputed endpoint keeps the scheme `ftp`. -/
theorem newWasabi_ftp_scheme_counterexample :
    ParseRequestURI (defaultScheme (lit "ftp://a.b.c")) =
      .ok { Scheme := lit "ftp", Host := lit "a.b.c" } ∧
    newWasabi staticConfig (lit "ftp://a.b.c") [] [] [] =
      .ret (some (wasabiOf ([], [], []) (lit "a") (lit "c") (lit "ftp" ++ lit "://" ++ lit "b.c")
        false), none) ∧
    lit "ftp" ≠ lit "http" ∧ lit "ftp" ≠ lit "https" :=
  ⟨rfl, rfl, by decide, by decide⟩

/-- C8 (amended): on every endpoint on which `newWasabi` succeeds, the recomputed
base endpoint starts with the scheme of the parsed URI, which is a URI scheme
in lower case (a letter followed by letters, digits, `+`, `-`, `.`), and is
`https` when the endpoint did not start with a scheme. -/
theorem newWasabi_scheme_preserved {Cfg : Type}
    (Load : GoString → GoString → GoString → Except GoString Cfg)
    (endpoint accessKey secretKey token : GoString) (c : wasabi Cfg)
    (h : newWasabi Load endpoint accessKey secretKey token = .ret (some c, none)) :
    ∃ uri host',
      ParseRequestURI (defaultScheme endpoint) = .ok uri ∧
      uri.Host = c.s3client.bucket ++ lit "." ++ host' ∧
      c.s3client.s3.BaseEndpoint = uri.Scheme ++ lit "://" ++ host' ∧
      validScheme uri.Scheme = true ∧ ToLower uri.Scheme = uri.Scheme ∧
      (startsWithScheme endpoint = false → uri.Scheme = lit "https") := by
  obtain ⟨uri, bucket, second, region, more, awsCfg, hp, hs, _, _, hc⟩ :=
    newWasabi_inv Load endpoint accessKey secretKey token h
  have hhost := (newWasabi_of_split Load endpoint accessKey secretKey token hp hs).1
  have hne := host_ne_nil_of_split hs
  obtain ⟨s, rest, hg, hsch, _, hs'⟩ := parse_ok (ParseRequestURI_ok hp)
  obtain ⟨hsne, _⟩ := hs' hne
  obtain ⟨hv, _⟩ := getScheme_spec hg hsne
  refine ⟨uri, uri.Host.drop (bucket.length + 1), hp, ?_, ?_, ?_, ?_, ?_⟩
  · rw [hc]; exact hhost
  · rw [hc]; rfl
  · rw [hsch]; exact validScheme_ToLower hv
  · rw [hsch]; exact ToLower_idem s
  · intro hn
    exact scheme_https_of_not_startsWithScheme hn hp hne

/-- C8 (amended) applied to the endpoint `ftp://a.b.c`. -/
theorem newWasabi_scheme_preserved_witness :
    newWasabi staticConfig (lit "ftp://a.b.c") [] [] [] =
      .ret (some (wasabiOf ([], [], []) (lit "a") (lit "c") (lit "ftp://b.c") false), none) ∧
    ∃ uri host',
      ParseRequestURI (defaultScheme (lit "ftp://a.b.c")) = .ok uri ∧
      uri.Host = lit "a" ++ lit "." ++ host' ∧
      lit "ftp://b.c" = uri.Scheme ++ lit "://" ++ host' ∧
      validScheme uri.Scheme = true ∧ ToLower uri.Scheme = uri.Scheme ∧
      (startsWithScheme (lit "ftp://a.b.c") = false → uri.Scheme = lit "https") :=
  ⟨rfl, newWasabi_scheme_preserved staticConfig (lit "ftp://a.b.c") [] [] []
    (wasabiOf ([], [], []) (lit "a") (lit "c") (lit "ftp://b.c") false) rfl⟩

theorem ToLower_eq_iff_equalIgnoringCase :
    ∀ (s t : GoString), (∀ b ∈ t, ¬(65 ≤ b ∧ b ≤ 90)) →
      (ToLower s = t ↔ equalIgnoringCase s t = true) := by
  intro s
  induction s with
  | nil =>
    intro t _
    cases t with
    | nil => simp [ToLower, equalIgnoringCase]
    | cons b t => simp [ToLower, equalIgnoringCase]
  | cons a s ih =>
    intro t ht
    cases t with
    | nil => simp [ToLower, equalIgnoringCase]
    | cons b t =>
      have hb : ¬(65 ≤ b ∧ b ≤ 90) := ht b (by simp)
      have := ih t (fun c hc => ht c (by simp [hc]))
      simp only [ToLower, Char.reduceToNat, List.map_cons, List.cons.injEq] at this ⊢
      simp only [equalIgnoringCase, sameLetter, Char.reduceToNat, Bool.and_eq_true,
        Bool.decide_or, Bool.decide_and, Bool.or_eq_true, decide_eq_true_eq]
      rw [← this]
      constructor
      · rintro ⟨h1, h2⟩
        refine ⟨?_, h2⟩
        split at h1 <;> omega
      · rintro ⟨h1, h2⟩
        refine ⟨?_, h2⟩
        split <;> omega

theorem validScheme_of_ToLower {s : GoString} (h : validScheme (ToLower s) = true) :
    validScheme s = true := by
  cases s with
  | nil => simp [ToLower, validScheme] at h
  | cons c cs =>
    simp only [validScheme, Char.reduceToNat, Bool.and_eq_true, decide_eq_true_eq,
      List.all_eq_true, ToLower, List.map_cons, List.mem_map, forall_exists_index, and_imp,
      forall_apply_eq_imp_iff₂, isSchemeByte, Bool.decide_or, Bool.or_eq_true] at h ⊢
    refine ⟨?_, ?_⟩
    · have h1 := h.1
      split at h1 <;> omega
    · intro d hd
      have h2 := h.2 d hd
      split at h2 <;> omega

theorem getSchemeLoop_of_scheme (rest : GoString) :
    ∀ (t pre : GoString), (∀ c ∈ t, isSchemeByte c = true) →
      (pre = [] → validScheme t = true) →
      getSchemeLoop (pre ++ t ++ 58 :: rest) pre.length (t ++ 58 :: rest) =
        .ok (pre ++ t, rest) := by
  intro t
  induction t with
  | nil =>
    intro pre _ hv
    have hpre : pre ≠ [] := by
      intro e
      have := hv e
      simp [validScheme] at this
    have hlen : pre.length ≠ 0 := by
      intro e
      exact hpre (List.length_eq_zero.mp e)
    simp [getSchemeLoop, hlen]
  | cons c t ih =>
    intro pre hall hv
    have hc : isSchemeByte c = true := hall c (by simp)
    have hrec : getSchemeLoop (pre ++ c :: t ++ 58 :: rest) (pre.length + 1) (t ++ 58 :: rest) =
        .ok (pre ++ c :: t, rest) := by
      have := ih (pre ++ [c]) (fun d hd => hall d (by simp [hd])) (by simp)
      simpa using this
    simp only [isSchemeByte, Char.reduceToNat, Bool.decide_or, Bool.decide_and,
      Bool.or_eq_true, Bool.and_eq_true, decide_eq_true_eq] at hc
    rw [List.cons_append, getSchemeLoop]
    simp only [Char.reduceToNat]
    split
    · exact hrec
    · rename_i hl
      have hpre : pre.length ≠ 0 := by
        intro e
        have := hv (List.length_eq_zero.mp e)
        simp only [validScheme, Char.reduceToNat, Bool.and_eq_true, decide_eq_true_eq] at this
        exact hl this.1
      have hd : (48 ≤ c ∧ c ≤ 57) ∨ c = 43 ∨ c = 45 ∨ c = 46 := by
        rcases hc with h | h | h | h
        · exact absurd (Or.inl h) hl
        · exact absurd (Or.inr h) hl
        · exact Or.inl h
        · exact Or.inr h
      simp only [hd, if_true, hpre, if_false]
      exact hrec

/-- On a URL that is a URI scheme, a colon and a rest, `getScheme` finds exactly
that scheme and that rest. -/
theorem getScheme_of_scheme {s : GoString} (rest : GoString) (h : validScheme s = true) :
    getScheme (s ++ 58 :: rest) = .ok (s, rest) := by
  have := getSchemeLoop_of_scheme rest s [] (validScheme_all h) (fun _ => h)
  simpa [getScheme] using this

theorem Contains_sep_append (s rest : GoString) :
    Contains (s ++ lit "://" ++ rest) (lit "://") = true := by
  rw [lit_sep]
  unfold Contains
  induction s with
  | nil => simp [Index, List.isPrefixOf]
  | cons c s ih =>
    simp only [List.cons_append, Index]
    split
    · rfl
    · simpa using ih

/-- The scheme of the parsed URI of an endpoint written as a URI scheme, `://`
and a rest is that scheme as `parse` lowers it. -/
theorem scheme_of_written {s rest : GoString} {uri : URL} (hv : validScheme s = true)
    (hp : ParseRequestURI (defaultScheme (s ++ lit "://" ++ rest)) = .ok uri) :
    uri.Scheme = ToLower s := by
  rw [defaultScheme_of_contains (Contains_sep_append s rest)] at hp
  obtain ⟨s', rest', hg, hsch, _, _⟩ := parse_ok (ParseRequestURI_ok hp)
  have he : s ++ lit "://" ++ rest = s ++ 58 :: (47 :: 47 :: rest) := by
    rw [lit_sep]; simp
  rw [he, getScheme_of_scheme _ hv] at hg
  injection hg with hg
  injection hg with h1 h2
  rw [hsch, ← h1]

theorem validScheme_of_equalIgnoringCase {s t : GoString} (ht : validScheme t = true)
    (hno : ∀ b ∈ t, ¬(65 ≤ b ∧ b ≤ 90)) (h : equalIgnoringCase s t = true) :
    validScheme s = true := by
  have := (ToLower_eq_iff_equalIgnoringCase s t hno).mpr h
  exact validScheme_of_ToLower (by rw [this]; exact ht)

theorem https_no_upper : ∀ b ∈ lit "https", ¬(65 ≤ b ∧ b ≤ 90) := by decide

theorem http_no_upper : ∀ b ∈ lit "http", ¬(65 ≤ b ∧ b ≤ 90) := by decide

/-- C9: on every endpoint on which `newWasabi` succeeds, TLS is enabled
(`DisableHTTPS = false`) exactly when the scheme of the parsed URI is `https`
up to the case of its letters.  In terms of the endpoint as written: TLS is
enabled exactly when the endpoint does not start with a scheme or starts with
a scheme that is `https` in any mix of upper and lower case; it is enabled for
every endpoint that does not start with a scheme, and disabled for every
endpoint that starts with `http://` in any mix of upper and lower case. -/
theorem newWasabi_tls_iff_https {Cfg : Type}
    (Load : GoString → GoString → GoString → Except GoString Cfg)
    (endpoint accessKey secretKey token : GoString) (c : wasabi Cfg)
    (h : newWasabi Load endpoint accessKey secretKey token = .ret (some c, none)) :
    (∃ uri,
      ParseRequestURI (defaultScheme endpoint) = .ok uri ∧
      (c.s3client.s3.DisableHTTPS = false ↔ ToLower uri.Scheme = lit "https") ∧
      (c.s3client.s3.DisableHTTPS = false ↔
        equalIgnoringCase uri.Scheme (lit "https") = true)) ∧
    (startsWithScheme endpoint = false → c.s3client.s3.DisableHTTPS = false) ∧
    (HasPrefix endpoint (lit "http://") = true → c.s3client.s3.DisableHTTPS = true) ∧
    (∀ s rest, endpoint = s ++ lit "://" ++ rest →
      equalIgnoringCase s (lit "https") = true → c.s3client.s3.DisableHTTPS = false) ∧
    (∀ s rest, endpoint = s ++ lit "://" ++ rest →
      equalIgnoringCase s (lit "http") = true → c.s3client.s3.DisableHTTPS = true) ∧
    (c.s3client.s3.DisableHTTPS = false ↔
      (startsWithScheme endpoint = false ∨
        ∃ s rest, endpoint = s ++ lit "://" ++ rest ∧
          equalIgnoringCase s (lit "https") = true)) := by
  obtain ⟨uri, bucket, second, region, more, awsCfg, hp, hs, _, _, hc⟩ :=
    newWasabi_inv Load endpoint accessKey secretKey token h
  have hne := host_ne_nil_of_split hs
  have hd : c.s3client.s3.DisableHTTPS = !(ToLower uri.Scheme == lit "https") := by
    rw [hc]; rfl
  have hiff : c.s3client.s3.DisableHTTPS = false ↔ ToLower uri.Scheme = lit "https" := by
    rw [hd]; simp
  have hfold : ∀ s : GoString, ToLower s = lit "https" ↔
      equalIgnoringCase s (lit "https") = true :=
    fun s => ToLower_eq_iff_equalIgnoringCase s _ https_no_upper
  -- the scheme as written decides the flag
  have hwritten : ∀ s rest, endpoint = s ++ lit "://" ++ rest → validScheme s = true →
      (c.s3client.s3.DisableHTTPS = false ↔ equalIgnoringCase s (lit "https") = true) := by
    intro s rest he hv
    subst he
    rw [hiff, scheme_of_written hv hp, ToLower_idem, hfold]
  have hschemeless : startsWithScheme endpoint = false → c.s3client.s3.DisableHTTPS = false := by
    intro hn
    have := scheme_https_of_not_startsWithScheme hn hp hne
    rw [hiff, this]
    rfl
  have hhttps : ∀ s rest, endpoint = s ++ lit "://" ++ rest →
      equalIgnoringCase s (lit "https") = true → c.s3client.s3.DisableHTTPS = false := by
    intro s rest he heq
    have hv : validScheme s = true :=
      validScheme_of_equalIgnoringCase (by decide) https_no_upper heq
    exact (hwritten s rest he hv).mpr heq
  refine ⟨⟨uri, hp, hiff, ?_⟩, hschemeless, ?_, hhttps, ?_, ?_⟩
  · rw [hiff]; exact hfold _
  · intro hpre
    obtain ⟨t, rfl⟩ := HasPrefix_iff.mp hpre
    rw [defaultScheme_of_contains (Contains_http t)] at hp
    obtain ⟨s, rest, hg, hsch, _, _⟩ := parse_ok (ParseRequestURI_ok hp)
    rw [getScheme_http] at hg
    injection hg with hg
    injection hg with h1 h2
    rw [hd, hsch, ← h1]
    rfl
  · intro s rest he heq
    have hv : validScheme s = true :=
      validScheme_of_equalIgnoringCase (by decide) http_no_upper heq
    have hlow : ToLower s = lit "http" :=
      (ToLower_eq_iff_equalIgnoringCase s _ http_no_upper).mpr heq
    subst he
    rw [hd, scheme_of_written hv hp, ToLower_idem, hlow]
    rfl
  · constructor
    · intro hfalse
      cases hsw : startsWithScheme endpoint with
      | false => exact Or.inl rfl
      | true =>
        obtain ⟨s, rest, hv, he⟩ := startsWithScheme_iff.mp hsw
        exact Or.inr ⟨s, rest, he, (hwritten s rest he hv).mp hfalse⟩
    · rintro (hn | ⟨s, rest, he, heq⟩)
      · exact hschemeless hn
      · exact hhttps s rest he heq

/-- C9 applied to four endpoints: `HTTPS://…` in upper case and an endpoint
without a scheme give a client with TLS enabled, `http://…` and `HtTp://…` a
client with TLS disabled. -/
theorem newWasabi_tls_iff_https_witness :
    newWasabi staticConfig (lit "HTTPS://mybucket.s3.us-east-1.example.com") [] [] [] =
      .ret (some (wasabiOf ([], [], []) (lit "mybucket") (lit "us-east-1")
        (lit "https://s3.us-east-1.example.com") true), none) ∧
    equalIgnoringCase (lit "HTTPS") (lit "https") = true ∧
    (wasabiOf (([], [], []) : GoString × GoString × GoString) (lit "mybucket") (lit "us-east-1")
      (lit "https://s3.us-east-1.example.com") true).s3client.s3.DisableHTTPS = false ∧
    newWasabi staticConfig (lit "mybucket.s3.us-east-1.example.com") [] [] [] =
      .ret (some (wasabiOf ([], [], []) (lit "mybucket") (lit "us-east-1")
        (lit "https://s3.us-east-1.example.com") true), none) ∧
    startsWithScheme (lit "mybucket.s3.us-east-1.example.com") = false ∧
    (wasabiOf (([], [], []) : GoString × GoString × GoString) (lit "mybucket") (lit "us-east-1")
      (lit "https://s3.us-east-1.example.com") true).s3client.s3.DisableHTTPS = false ∧
    newWasabi staticConfig (lit "http://mybucket.s3.us-east-1.example.com") [] [] [] =
      .ret (some (wasabiOf ([], [], []) (lit "mybucket") (lit "us-east-1")
        (lit "http://s3.us-east-1.example.com") false), none) ∧
    HasPrefix (lit "http://mybucket.s3.us-east-1.example.com") (lit "http://") = true ∧
    (wasabiOf (([], [], []) : GoString × GoString × GoString) (lit "mybucket") (lit "us-east-1")
      (lit "http://s3.us-east-1.example.com") false).s3client.s3.DisableHTTPS = true ∧
    newWasabi staticConfig (lit "HtTp://mybucket.s3.us-east-1.example.com") [] [] [] =
      .ret (some (wasabiOf ([], [], []) (lit "mybucket") (lit "us-east-1")
        (lit "http://s3.us-east-1.example.com") false), none) ∧
    equalIgnoringCase (lit "HtTp") (lit "http") = true ∧
    (wasabiOf (([], [], []) : GoString × GoString × GoString) (lit "mybucket") (lit "us-east-1")
      (lit "http://s3.us-east-1.example.com") false).s3client.s3.DisableHTTPS = true :=
  ⟨rfl, by decide,
    (newWasabi_tls_iff_https staticConfig (lit "HTTPS://mybucket.s3.us-east-1.example.com")
      [] [] [] _ rfl).2.2.2.1 (lit "HTTPS") (lit "mybucket.s3.us-east-1.example.com") rfl
      (by decide),
    rfl, by decide,
    (newWasabi_tls_iff_https staticConfig (lit "mybucket.s3.us-east-1.example.com")
      [] [] [] _ rfl).2.1 (by decide),
    rfl, by decide,
    (newWasabi_tls_iff_https staticConfig (lit "http://mybucket.s3.us-east-1.example.com")
      [] [] [] _ rfl).2.2.1 (by decide),
    rfl, by decide,
    (newWasabi_tls_iff_https staticConfig (lit "HtTp://mybucket.s3.us-east-1.example.com")
      [] [] [] _ rfl).2.2.2.2.1 (lit "HtTp") (lit "mybucket.s3.us-east-1.example.com") rfl
      (by decide)⟩

end object

namespace utils

open strings strconv

theorem releaseBytes_lt : ∀ (l : List Int), ∀ b ∈ releaseBytes l, b < 256 := by
  intro l
  induction l with
  | nil => simp [releaseBytes]
  | cons v vs ih =>
    intro b hb
    simp only [releaseBytes] at hb
    split at hb
    · simp at hb
    · simp only [List.mem_cons] at hb
      rcases hb with rfl | hb
      · omega
      · exact ih b hb

theorem firstField_subset (buf : GoString) : ∀ b ∈ firstField buf, b ∈ buf :=
  fun _ h => ( List.takeWhile_prefix _).subset h

theorem secondField_subset (buf : GoString) : ∀ b ∈ secondField buf, b ∈ buf :=
  fun _ h => (List.dropWhile_suffix _).subset
    (List.mem_of_mem_drop (( List.takeWhile_prefix _).subset h))

/-! ## Specified property of `pkg/utils/utils_linux.go` (C10) -/

/-- C10, as stated, fails: the first field of the release
`99999999999999999999x.4` is not a decimal integer, yet `GetKernelVersion`
returns the major version `2^63 - 1`: `Atoi` reports the range error of the
leading digits before it reaches the `x`.  The same happens to the second field
of `5.99999999999999999999x`, whose clamped value becomes the minor version. -/
theorem GetKernelVersion_overflow_counterexample :
    releaseBytes (cstring (lit "99999999999999999999x.4")) = lit "99999999999999999999x.4" ∧
    firstField (lit "99999999999999999999x.4") = lit "99999999999999999999x" ∧
    decimalInteger (lit "99999999999999999999x") = none ∧
    GetKernelVersion 64 (some ⟨cstring (lit "99999999999999999999x.4")⟩) =
      (9223372036854775807, 0) ∧
    releaseBytes (cstring (lit "5.99999999999999999999x")) = lit "5.99999999999999999999x" ∧
    firstField (lit "5.99999999999999999999x") = lit "5" ∧
    secondField (lit "5.99999999999999999999x") = lit "99999999999999999999x" ∧
    GetKernelVersion 64 (some ⟨cstring (lit "5.99999999999999999999x")⟩) =
      (5, 9223372036854775807) :=
  ⟨by decide, by decide, by decide, by decide, by decide, by decide, by decide, by decide⟩

/-- C10 (amended): let `buf` be the release up to its first NUL byte.  When `buf`
has a dot and its first two dot-separated fields are decimal integers `M` and
`m` within the range of `int`, `GetKernelVersion` returns `(M, m)`.  When `buf`
has no dot, or its first field is not a decimal integer and the digits it
starts with do not exceed `2^w - 1`, it returns `(0, 0)`.  When the first field
is a decimal integer `M` within range and the second is not a decimal integer
and the digits it starts with do not exceed `2^w - 1`, it returns `(M, 0)`.
Here `w`, 32 or 64, is the width of `int`. -/
theorem GetKernelVersion_parses_release (w : Nat) (hw : w = 32 ∨ w = 64) (uname : Utsname) :
    (∀ M m : Int, '.'.toNat ∈ releaseBytes uname.Release →
      decimalInteger (firstField (releaseBytes uname.Release)) = some M →
      decimalInteger (secondField (releaseBytes uname.Release)) = some m →
      -(2 : Int) ^ (w - 1) ≤ M → M ≤ 2 ^ (w - 1) - 1 →
      -(2 : Int) ^ (w - 1) ≤ m → m ≤ 2 ^ (w - 1) - 1 →
      GetKernelVersion w (some uname) = (M, m)) ∧
    ('.'.toNat ∉ releaseBytes uname.Release → GetKernelVersion w (some uname) = (0, 0)) ∧
    (decimalInteger (firstField (releaseBytes uname.Release)) = none →
      digitsValue (leadingDigits (firstField (releaseBytes uname.Release))) ≤ 2 ^ w - 1 →
      GetKernelVersion w (some uname) = (0, 0)) ∧
    (∀ M : Int, '.'.toNat ∈ releaseBytes uname.Release →
      decimalInteger (firstField (releaseBytes uname.Release)) = some M →
      -(2 : Int) ^ (w - 1) ≤ M → M ≤ 2 ^ (w - 1) - 1 →
      decimalInteger (secondField (releaseBytes uname.Release)) = none →
      digitsValue (leadingDigits (secondField (releaseBytes uname.Release))) ≤ 2 ^ w - 1 →
      GetKernelVersion w (some uname) = (M, 0)) := by
  generalize hbuf : releaseBytes uname.Release = buf
  have hlt : ∀ b ∈ buf, b < 256 := by
    rw [← hbuf]; exact releaseBytes_lt _
  have hb0 : ∀ b ∈ firstField buf, b < 256 := fun b h => hlt b (firstField_subset buf b h)
  have hb1 : ∀ b ∈ secondField buf, b < 256 := fun b h => hlt b (secondField_subset buf b h)
  have hnodot : 46 ∉ buf → GetKernelVersion w (some uname) = (0, 0) := by
    intro h
    simp only [GetKernelVersion, hbuf, SplitN_three_of_not_mem h]
  simp only [Char.reduceToNat]
  refine ⟨?_, hnodot, ?_, ?_⟩
  · intro M m hdot hM hm hM1 hM2 hm1 hm2
    obtain ⟨tail, hsplit⟩ := SplitN_three_of_mem hdot
    simp only [GetKernelVersion, hbuf, hsplit, Atoi_of_decimal hw hb0 hM hM1 hM2,
      Atoi_of_decimal hw hb1 hm hm1 hm2]
  · intro hM hlead
    by_cases hdot : 46 ∈ buf
    · obtain ⟨tail, hsplit⟩ := SplitN_three_of_mem hdot
      simp only [GetKernelVersion, hbuf, hsplit, Atoi_of_not_decimal hw hb0 hM hlead]
    · exact hnodot hdot
  · intro M hdot hM hM1 hM2 hm hlead
    obtain ⟨tail, hsplit⟩ := SplitN_three_of_mem hdot
    simp only [GetKernelVersion, hbuf, hsplit, Atoi_of_decimal hw hb0 hM hM1 hM2,
      Atoi_of_not_decimal hw hb1 hm hlead]

/-- C10 (amended) applied with 64-bit `int` to the releases `5.15.0-91-generic`,
`generic`, `rc.4` and `5.4-rc1`. -/
theorem GetKernelVersion_parses_release_witness :
    GetKernelVersion 64 (some ⟨cstring (lit "5.15.0-91-generic")⟩) = (5, 15) ∧
    GetKernelVersion 64 (some ⟨cstring (lit "generic")⟩) = (0, 0) ∧
    GetKernelVersion 64 (some ⟨cstring (lit "rc.4")⟩) = (0, 0) ∧
    GetKernelVersion 64 (some ⟨cstring (lit "5.4-rc1")⟩) = (5, 0) :=
  ⟨(GetKernelVersion_parses_release 64 (Or.inr rfl) ⟨cstring (lit "5.15.0-91-generic")⟩).1 5 15
      (by decide) (by decide) (by decide) (by decide) (by decide) (by decide) (by decide),
    (GetKernelVersion_parses_release 64 (Or.inr rfl) ⟨cstring (lit "generic")⟩).2.1 (by decide),
    (GetKernelVersion_parses_release 64 (Or.inr rfl) ⟨cstring (lit "rc.4")⟩).2.2.1
      (by decide) (by decide),
    (GetKernelVersion_parses_release 64 (Or.inr rfl) ⟨cstring (lit "5.4-rc1")⟩).2.2.2 5
      (by decide) (by decide) (by decide) (by decide) (by decide) (by decide)⟩

end utils

end Juicefs
